import Mathlib

/-!
# Range-V3 (VS2015 fork): `view::stride` and `copy_n`

A shallow embedding of `include/range/v3/view/stride.hpp` and
`include/range/v3/algorithm/copy_n.hpp`, followed by the properties proved
about it.

Conventions of the embedding

* `difference_type_` (a signed machine integer) is `Int`.  Signed overflow is
  undefined behaviour in C++ and lies outside the model; `size_type_`
  arithmetic is unsigned and is reduced modulo `2 ^ w`.
* A base iterator is the index of the element it designates, so
  `ranges::begin(base)` is `0`, `ranges::end(base)` is the length and
  `there - here` is integer subtraction.
* `RANGES_ASSERT(e)` is a fatal assertion: an operation whose assertion fails
  yields `none` (stride view) or `Except.error` (copy_n).
* C++ `%` and `/` on signed integers truncate towards zero: `Int.tmod`,
  `Int.tdiv`.
-/

namespace ranges

/-- Modelled from the spec: the bounded `ranges::advance(it, n, bound)` of
`range/v3/utility/iterator.hpp`, which is not among the sources.  It moves `it`
by `n` steps in the direction of the sign of `n`, stops early when `it` reaches
`bound` ("clamped at the base's true end"), and returns how many of the `n`
steps were not taken ("records how many fewer steps were actually possible").
The result is the pair (new iterator, returned shortfall). -/
def advance (it n bound : Int) : Int × Int :=
  if 0 ≤ n then
    if it ≤ bound ∧ bound - it ≤ n then (bound, n - (bound - it)) else (it + n, 0)
  else
    if bound ≤ it ∧ n ≤ bound - it then (bound, n - (bound - it)) else (it + n, 0)

/-- The `stride_view<Rng>` object: the adapted base range and `stride_`.  The two
flags are the compile-time verdicts `BidirectionalRange<Rng>()` and
`SizedRange<Rng>()` the code branches on. -/
structure stride_view (α : Type) where
  base : List α
  stride_ : Int
  bidirectional : Bool
  sized : Bool

namespace stride_view

variable {α : Type}

/-- The value held by `offset_t` after `x` is assigned to it: for a bidirectional
base `offset_t` is `mutable_<std::atomic<difference_type_>>` and keeps `x`, for
any other base it is `constant<difference_type_, 0>` and always reads `0`. -/
def offset_t (v : stride_view α) (x : Int) : Int :=
  if v.bidirectional then x else 0

/-- A position of the stride view: the base iterator `it` the engine keeps next
to the adaptor, and the adaptor's `offset()`. -/
structure cursor where
  it : Int
  offset : Int
  deriving DecidableEq, Repr

/-- The base iterator `ranges::begin(rng_->mutable_base())`. -/
def base_begin (_v : stride_view α) : Int := 0

/-- The base iterator `ranges::end(rng_->mutable_base())`. -/
def base_end (v : stride_view α) : Int := v.base.length

/-- The element `*it` a cursor reads; `none` when `it` designates no element. -/
def read (v : stride_view α) (c : cursor) : Option α :=
  if 0 ≤ c.it then v.base[c.it.toNat]? else none

namespace adaptor

/-- `adaptor::calc_offset`. -/
def calc_offset (v : stride_view α) : Int :=
  let tmp := Int.tmod (v.base.length : Int) v.stride_
  if 0 ≠ tmp then v.stride_ - tmp else tmp

/-- `adaptor::clean`: when the offset is still `-1`, one compare-and-set from `-1`
to `calc_offset()`. -/
def clean (v : stride_view α) (c : cursor) : cursor :=
  if c.offset = -1 then { c with offset := calc_offset v } else c

/-- `adaptor::next`. -/
def next (v : stride_view α) (c : cursor) : Option cursor :=
  if 0 = c.offset then
    if c.it ≠ base_end v then
      let r := advance c.it (v.stride_ + c.offset) (base_end v)
      some { it := r.1, offset := offset_t v r.2 }
    else none
  else none

/-- `adaptor::prev`. -/
def prev (v : stride_view α) (c : cursor) : Option cursor :=
  let c1 := clean v c
  let r := advance c1.it (-v.stride_ + c1.offset) (base_begin v)
  let c2 : cursor := { it := r.1, offset := offset_t v r.2 }
  if 0 = c2.offset then some c2 else none

/-- `adaptor::distance_to`: `c` is `(here, *this)`, `d` is `(there, that)`.  Both
adaptors belong to the view `v`, which is the assertion `rng_ == that.rng_`.  The
result carries the two cursors as `clean` left them. -/
def distance_to (v : stride_view α) (c d : cursor) : Option (Int × cursor × cursor) :=
  let c1 := clean v c
  let d1 := clean v d
  if 0 = Int.tmod ((d1.it - c1.it) + d1.offset - c1.offset) v.stride_ then
    some (Int.tdiv ((d1.it - c1.it) + d1.offset - c1.offset) v.stride_, c1, d1)
  else none

/-- `adaptor::advance`. -/
def advance (v : stride_view α) (c : cursor) (n : Int) : cursor :=
  let c1 := if n ≠ 0 then clean v c else c
  if 0 < n then
    let r := ranges.advance c1.it (n * v.stride_ + c1.offset) (base_end v)
    { it := r.1, offset := offset_t v r.2 }
  else if 0 > n then
    let r := ranges.advance c1.it (n * v.stride_ + c1.offset) (base_begin v)
    { it := r.1, offset := offset_t v r.2 }
  else c1

end adaptor

/-- `stride_view::begin_adaptor`, paired with the base begin. -/
def begin_adaptor (v : stride_view α) : cursor :=
  { it := base_begin v, offset := offset_t v 0 }

/-- `stride_view::end_adaptor` for a bounded base, paired with the base end:
`adaptor(rng, end_tag)`. -/
def end_adaptor (v : stride_view α) : cursor :=
  let off := offset_t v (-1)
  { it := base_end v,
    offset := if v.bidirectional && v.sized then offset_t v (adaptor.calc_offset v) else off }

/-- `stride_view::size` in `size_type_` arithmetic of `w` bits. -/
def size (w : Nat) (v : stride_view α) : Nat :=
  let s := (v.stride_ % (2 ^ w : Int)).toNat
  (((v.base.length % 2 ^ w + s) % 2 ^ w + 2 ^ w - 1) % 2 ^ w) / s

/-- The cursor after `k` calls of `adaptor::next`. -/
def next_n (v : stride_view α) : Nat → cursor → Option cursor
  | 0, c => some c
  | k + 1, c => (adaptor.next v c).bind (next_n v k)

/-- The cursor after `k` calls of `adaptor::prev`. -/
def prev_n (v : stride_view α) : Nat → cursor → Option cursor
  | 0, c => some c
  | k + 1, c => (adaptor.prev v c).bind (prev_n v k)

/-- The loop `for(; it != end; ++it) visit(*it)` over the view with `fuel`
iterations allowed: the elements read in order, the number of `next` calls, and
the final cursor.  `none` when the fuel runs out, a read fails or an assertion
fires. -/
def traverse (v : stride_view α) : Nat → cursor → Option (List α × Nat × cursor)
  | 0, _ => none
  | fuel + 1, c =>
    if c.it = base_end v then some ([], 0, c)
    else
      match read v c, adaptor.next v c with
      | some x, some c1 =>
        (traverse v fuel c1).map (fun r => (x :: r.1, r.2.1 + 1, r.2.2))
      | _, _ => none

/-- The loop `while(it != begin) { --it; visit(*it); }` over the view. -/
def traverse_back (v : stride_view α) : Nat → cursor → Option (List α × Nat × cursor)
  | 0, _ => none
  | fuel + 1, c =>
    if c.it = base_begin v then some ([], 0, c)
    else
      match adaptor.prev v c with
      | some c1 =>
        match read v c1 with
        | some x => (traverse_back v fuel c1).map (fun r => (x :: r.1, r.2.1 + 1, r.2.2))
        | none => none
      | none => none

/-- The cursors that sit at index `k` of the view: what `k` calls of `adaptor::next`
make of the begin cursor and, when that is at the base end, also the end cursor
`end_adaptor` builds and the end cursor whose offset is still unresolved. -/
def at_index (v : stride_view α) (k : Nat) (c : cursor) : Prop :=
  next_n v k (begin_adaptor v) = some c ∨
    ((next_n v k (begin_adaptor v)).map cursor.it = some (base_end v) ∧
      (c = end_adaptor v ∨ c = ⟨base_end v, -1⟩))

instance (v : stride_view α) (k : Nat) (c : cursor) : Decidable (at_index v k c) := by
  unfold at_index; infer_instance

/-- The constructor `stride_view(Rng rng, difference_type_ stride)`: it stores the
base and the stride and then asserts `0 < stride_`.  The two flags are properties of
the type `Rng`. -/
def construct (rng : List α) (stride : Int) (bidirectional sized : Bool) :
    Option (stride_view α) :=
  let v : stride_view α :=
    { base := rng, stride_ := stride, bidirectional := bidirectional, sized := sized }
  if 0 < v.stride_ then some v else none

/-- The index of the end cursor: the number of `next` calls after which the traversal
loop from the begin cursor stops at the base end. -/
def end_index (v : stride_view α) : Nat :=
  ((traverse v (v.base.length + 1) (begin_adaptor v)).map (fun r => r.2.1)).getD 0

/-- The operations applied to a cursor: `next`, `prev`, `advance(n)` and the
internal `clean`. -/
inductive op where
  | step_forward
  | step_backward
  | jump (n : Int)
  | clean
  deriving DecidableEq, Repr

/-- What a sequence of operations comes to: the caller broke a precondition (`misuse`:
a step out of bounds, or an operation the base does not support), a `RANGES_ASSERT`
fired (`fatal`), or the cursor `c` now sits at index `k`. -/
inductive outcome where
  | misuse
  | fatal
  | at (k : Nat) (c : cursor)
  deriving DecidableEq, Repr

/-- One operation applied to the cursor `c` at index `k`.  It is in bounds when:
`step_forward`, `c` is not at the base end; `step_backward`, the base is
bidirectional (`prev` exists) and `c` is not at the base begin; `jump n`, the base is
bidirectional (random access) and `k + n` is a visited index, one that stepping
forward from the begin cursor reaches; `clean`, the base is bidirectional. -/
def apply_op (v : stride_view α) (k : Nat) (c : cursor) : op → outcome
  | op.step_forward =>
    if c.it = base_end v then outcome.misuse
    else
      match adaptor.next v c with
      | some c1 => outcome.at (k + 1) c1
      | none => outcome.fatal
  | op.step_backward =>
    if v.bidirectional = false ∨ c.it = base_begin v then outcome.misuse
    else
      match adaptor.prev v c with
      | some c1 => outcome.at (k - 1) c1
      | none => outcome.fatal
  | op.jump n =>
    if v.bidirectional = true ∧ 0 ≤ (k : Int) + n ∧
        (next_n v ((k : Int) + n).toNat (begin_adaptor v)).isSome = true then
      outcome.at ((k : Int) + n).toNat (adaptor.advance v c n)
    else outcome.misuse
  | op.clean =>
    if v.bidirectional = true then outcome.at k (adaptor.clean v c) else outcome.misuse

/-- A sequence of operations applied in order to the cursor `c` at index `k`. -/
def run (v : stride_view α) : List op → Nat → cursor → outcome
  | [], k, c => outcome.at k c
  | o :: os, k, c =>
    match apply_op v k c o with
    | outcome.at k1 c1 => run v os k1 c1
    | outcome.misuse => outcome.misuse
    | outcome.fatal => outcome.fatal

/-- The cursor `c` at index `k` is reachable: in-bounds operations lead to it from the
begin cursor (index 0) or from the end cursor (index `end_index`). -/
def reachable (v : stride_view α) (k : Nat) (c : cursor) : Prop :=
  ∃ ops : List op,
    run v ops 0 (begin_adaptor v) = outcome.at k c ∨
      run v ops (end_index v) (end_adaptor v) = outcome.at k c

/-! ### Concurrent `clean`

`adaptor::clean` makes two accesses to the `std::atomic` offset cell: the load in
`off == -1` and, when that read `-1`, one `compare_exchange_strong` from `-1` to
`calc_offset()`.  Each access is one atomic step; threads that share the cell
interleave their steps in any order. -/

/-- Where a thread stands in `adaptor::clean`: before the load `off == -1`, before
the `compare_exchange_strong` (the load read `-1`), or after `clean` has returned. -/
inductive clean_pc where
  | at_load
  | at_cas
  | returned
  deriving DecidableEq, Repr

/-- How far a thread has come: 0 before the load, 1 before the compare-and-set, 2 once
`clean` has returned. -/
def clean_pc.rank : clean_pc → Nat
  | clean_pc.at_load => 0
  | clean_pc.at_cas => 1
  | clean_pc.returned => 2

/-- A thread running `clean` on the shared cell: its place in `clean`, the values its
accesses inside `clean` read from the cell, and the values it reads from the cell
after `clean` has returned. -/
structure clean_thread where
  pc : clean_pc
  seen : List Int
  later : List Int
  deriving DecidableEq, Repr

/-- The shared offset cell of one end cursor and the threads working on it. -/
structure clean_race where
  cell : Int
  threads : List clean_thread
  deriving DecidableEq, Repr

/-- One atomic step of a thread on the cell, giving the new cell value and the new
thread state.  At the load the thread reads the cell and goes on to the
compare-and-set when it read `-1`, else returns.  At the compare-and-set it reads the
cell, stores `calc_offset()` when the cell holds the expected `-1` and leaves it alone
otherwise, and returns.  After `clean` a step reads `offset()`. -/
def clean_step (v : stride_view α) (cell : Int) (t : clean_thread) : Int × clean_thread :=
  match t.pc with
  | clean_pc.at_load =>
    (cell, { t with pc := if cell = -1 then clean_pc.at_cas else clean_pc.returned,
                    seen := t.seen ++ [cell] })
  | clean_pc.at_cas =>
    (if cell = -1 then adaptor.calc_offset v else cell,
      { t with pc := clean_pc.returned, seen := t.seen ++ [cell] })
  | clean_pc.returned => (cell, { t with later := t.later ++ [cell] })

/-- The scheduler lets thread `i` make its next step; an index that names no thread
changes nothing. -/
def race_step (v : stride_view α) (s : clean_race) (i : Nat) : clean_race :=
  match s.threads[i]? with
  | none => s
  | some t =>
    { cell := (clean_step v s.cell t).1, threads := s.threads.set i (clean_step v s.cell t).2 }

/-- An interleaving: the threads step in the order the schedule lists them. -/
def race_run (v : stride_view α) : List Nat → clean_race → clean_race
  | [], s => s
  | i :: rest, s => race_run v rest (race_step v s i)

/-- The unresolved offset cell of an end cursor and `N` threads that are about to call
`clean` on it. -/
def race_init (N : Nat) : clean_race :=
  { cell := -1, threads := List.replicate N { pc := clean_pc.at_load, seen := [], later := [] } }

end stride_view

/-! ## `copy_n`

Both positions are addresses into one store, so that the instantiation in which
source and destination are pointers into the same array is covered; separate
containers occupy disjoint address ranges of the store. -/

deriving instance DecidableEq for Except

/-- Why a call did not return normally: a failed `RANGES_ASSERT`, or a
dereference outside the store (undefined behaviour in C++). -/
inductive fault where
  | assertion
  | undefined
  deriving DecidableEq, Repr

/-- One access to the store: `*b` read `x` at `addr`, or `*out = x` wrote `x` at
`addr`. -/
inductive event (α : Type) where
  | read (addr : Nat) (x : α)
  | write (addr : Nat) (x : α)
  deriving DecidableEq, Repr

/-- The store and the accesses made so far, oldest first. -/
structure copy_state (α : Type) where
  mem : List α
  log : List (event α)
  deriving DecidableEq, Repr

/-- A source position of type `I`: a plain position, or a position that carries an
embedded remaining-count. -/
inductive in_pos where
  | plain (p : Nat)
  | counted (p : Nat) (cnt : Int)
  deriving DecidableEq, Repr

namespace in_pos

/-- Modelled from the spec: `++i` on a source position, which is not among the
sources.  On a count-carrying position the embedded count decreases by one for
each advance. -/
def next : in_pos → in_pos
  | plain p => plain (p + 1)
  | counted p cnt => counted (p + 1) (cnt - 1)

/-- The position advanced `k` times. -/
def next_n : Nat → in_pos → in_pos
  | 0, i => i
  | k + 1, i => next_n k (next i)

end in_pos

/-- Modelled from the spec: `uncounted(i)` of `range/v3/utility/iterator.hpp`,
which is not among the sources: strips the embedded count to a plain position. -/
def uncounted : in_pos → Nat
  | in_pos.plain p => p
  | in_pos.counted p _ => p

/-- Modelled from the spec: `recounted(i, j, n)` of `range/v3/utility/iterator.hpp`,
which is not among the sources: restores a count-carrying position from the
original position `i`, the ending plain position `j` and the number `n` of
elements advanced; a plain `i` gives back `j`. -/
def recounted : in_pos → Nat → Int → in_pos
  | in_pos.plain _, j, _ => in_pos.plain j
  | in_pos.counted _ cnt, j, n => in_pos.counted j (cnt - n)

namespace copy_n_fn

variable {α : Type}

/-- The accesses of successive iterations {read source, write destination, advance
both} that start at source address `b` and destination address `out` and read the
values `xs`: one read and one write per iteration. -/
def iterations (b out : Nat) : List α → List (event α)
  | [] => []
  | x :: xs => event.read b x :: event.write out x :: iterations (b + 1) (out + 1) xs

/-- The loop `for(; n != 0; ++b, ++out, --n) *out = *b;` of `copy_n_fn::operator()`.
It runs after `RANGES_ASSERT(0 <= n)`, so the counter is a natural number:
`n != 0` is the match on `n + 1` and `--n` the recursive call. -/
def loop : Nat → Nat → Nat → copy_state α → Except fault (Nat × Nat) × copy_state α
  | 0, b, out, s => (.ok (b, out), s)
  | n + 1, b, out, s =>
    match s.mem[b]? with
    | none => (.error fault.undefined, s)
    | some x =>
      let s1 : copy_state α := { s with log := s.log ++ [event.read b x] }
      if out < s1.mem.length then
        loop n (b + 1) (out + 1)
          { mem := s1.mem.set out x, log := s1.log ++ [event.write out x] }
      else (.error fault.undefined, s1)

/-- `copy_n_fn::operator()(I begin, iterator_difference_t<I> n, O out)` run on the
store `mem`: the returned pair `{recounted(begin, b, norig), out}` or the fault,
together with the final store and the accesses made. -/
def call (mem : List α) (begin : in_pos) (n : Int) (out : Nat) :
    Except fault (in_pos × Nat) × copy_state α :=
  if 0 ≤ n then
    let norig := n
    let b := uncounted begin
    match loop n.toNat b out { mem := mem, log := [] } with
    | (.ok (b1, out1), s) => (.ok (recounted begin b1 norig, out1), s)
    | (.error e, s) => (.error e, s)
  else (.error fault.assertion, { mem := mem, log := [] })

end copy_n_fn

/-! ## Arithmetic of the element count -/

theorem ceil_bounds (L : Nat) (S : Int) (hS : 0 < S) :
    ((⌈(L : ℚ) / (S : ℚ)⌉₊ : Nat) : Int) * S - S < L ∧
      (L : Int) ≤ ((⌈(L : ℚ) / (S : ℚ)⌉₊ : Nat) : Int) * S := by
  have hSq : (0 : ℚ) < (S : ℚ) := by exact_mod_cast hS
  have h0 : (0 : ℚ) ≤ (L : ℚ) / (S : ℚ) := by positivity
  have h1 := Nat.le_ceil ((L : ℚ) / (S : ℚ))
  have h2 := Nat.ceil_lt_add_one h0
  rw [div_le_iff₀ hSq] at h1
  rw [← sub_lt_iff_lt_add, lt_div_iff₀ hSq] at h2
  constructor
  · have : ((⌈(L : ℚ) / (S : ℚ)⌉₊ : ℚ) * (S : ℚ) - (S : ℚ)) < (L : ℚ) := by linarith
    exact_mod_cast this
  · exact_mod_cast h1

theorem index_unique (L S a b : Int) (hS : 0 < S) (ha1 : a * S - S < L) (ha2 : L ≤ a * S)
    (hb1 : b * S - S < L) (hb2 : L ≤ b * S) : a = b := by
  rcases lt_trichotomy a b with h | h | h
  · exfalso
    have : (a + 1) * S ≤ b * S := Int.mul_le_mul_of_nonneg_right (by omega) (le_of_lt hS)
    nlinarith
  · exact h
  · exfalso
    have : (b + 1) * S ≤ a * S := Int.mul_le_mul_of_nonneg_right (by omega) (le_of_lt hS)
    nlinarith

theorem mul_lt_of_lt_index (L S k m : Int) (hS : 0 < S) (hm1 : m * S - S < L) (hk : k < m) :
    k * S < L := by
  have : (k + 1) * S ≤ m * S := Int.mul_le_mul_of_nonneg_right (by omega) (le_of_lt hS)
  nlinarith

theorem lt_index_of_mul_lt (L S k m : Int) (hS : 0 < S) (hm2 : L ≤ m * S) (hk : k * S < L) :
    k < m := by
  by_contra h
  have : m * S ≤ k * S := Int.mul_le_mul_of_nonneg_right (by omega) (le_of_lt hS)
  omega

theorem ceil_eq_of_bounds (L : Nat) (S q : Int) (hS : 0 < S) (h1 : q * S - S < L)
    (h2 : (L : Int) ≤ q * S) : ((⌈(L : ℚ) / (S : ℚ)⌉₊ : Nat) : Int) = q :=
  index_unique L S _ q hS (ceil_bounds L S hS).1 (ceil_bounds L S hS).2 h1 h2

namespace stride_view

variable {α : Type}

theorem calc_offset_eq (v : stride_view α) (hS : 0 < v.stride_) (m : Int)
    (hm1 : m * v.stride_ - v.stride_ < v.base.length)
    (hm2 : (v.base.length : Int) ≤ m * v.stride_) :
    adaptor.calc_offset v = m * v.stride_ - v.base.length := by
  have hL : (0 : Int) ≤ v.base.length := Int.ofNat_nonneg _
  have hr0 := Int.emod_nonneg (v.base.length : Int) (ne_of_gt hS)
  have hr1 := Int.emod_lt_of_pos (v.base.length : Int) hS
  have hdm := Int.ediv_add_emod (v.base.length : Int) v.stride_
  have hcomm : v.stride_ * ((v.base.length : Int) / v.stride_) =
      ((v.base.length : Int) / v.stride_) * v.stride_ := Int.mul_comm _ _
  unfold adaptor.calc_offset
  rw [Int.tmod_eq_emod hL (le_of_lt hS)]
  by_cases hr : (v.base.length : Int) % v.stride_ = 0
  · have hm : m = (v.base.length : Int) / v.stride_ :=
      index_unique _ _ _ _ hS hm1 hm2 (by omega) (by omega)
    have : ¬ (0 ≠ (v.base.length : Int) % v.stride_) := by omega
    simp only [this, if_false]
    rw [hm]; omega
  · have hm : m = (v.base.length : Int) / v.stride_ + 1 :=
      index_unique _ _ _ _ hS hm1 hm2 (by rw [Int.add_mul]; omega) (by rw [Int.add_mul]; omega)
    have : (0 ≠ (v.base.length : Int) % v.stride_) := by omega
    simp only [this, if_true]
    rw [hm, Int.add_mul]; omega

theorem calc_offset_range (v : stride_view α) (hS : 0 < v.stride_) :
    0 ≤ adaptor.calc_offset v ∧ adaptor.calc_offset v < v.stride_ := by
  have hb := ceil_bounds v.base.length v.stride_ hS
  rw [calc_offset_eq v hS _ hb.1 hb.2]
  omega

/-! ## Single steps of the cursor -/

theorem offset_t_zero (v : stride_view α) : offset_t v 0 = 0 := by
  unfold offset_t; split <;> rfl

theorem offset_t_bidir (v : stride_view α) (hb : v.bidirectional = true) (x : Int) :
    offset_t v x = x := by
  unfold offset_t; simp [hb]

theorem advance_fwd_free (it n bound : Int) (hn : 0 ≤ n) (h : it + n < bound) :
    ranges.advance it n bound = (it + n, 0) := by
  have h2 : ¬ (it ≤ bound ∧ bound - it ≤ n) := by omega
  simp only [ranges.advance, hn, h2, if_true, if_false]

theorem advance_fwd_clamp (it n bound : Int) (hn : 0 ≤ n) (h : it ≤ bound)
    (h' : bound ≤ it + n) : ranges.advance it n bound = (bound, it + n - bound) := by
  have h2 : (it ≤ bound ∧ bound - it ≤ n) := by omega
  have h4 : n - (bound - it) = it + n - bound := by omega
  simp only [ranges.advance, hn, h2, h4, and_self, if_true]

theorem advance_bwd_free (it n bound : Int) (hn : n < 0) (h : bound < it + n) :
    ranges.advance it n bound = (it + n, 0) := by
  have h1 : ¬ (0 ≤ n) := by omega
  have h2 : ¬ (bound ≤ it ∧ n ≤ bound - it) := by omega
  simp only [ranges.advance, h1, h2, if_false]

theorem advance_bwd_clamp (it n bound : Int) (hn : n < 0) (h : bound ≤ it)
    (h' : it + n ≤ bound) : ranges.advance it n bound = (bound, it + n - bound) := by
  have h1 : ¬ (0 ≤ n) := by omega
  have h2 : (bound ≤ it ∧ n ≤ bound - it) := by omega
  have h4 : n - (bound - it) = it + n - bound := by omega
  simp only [ranges.advance, h1, h2, h4, and_self, if_true, if_false]

theorem next_inner (v : stride_view α) (hS : 0 < v.stride_) (p : Int)
    (h : p + v.stride_ < v.base.length) :
    adaptor.next v ⟨p, 0⟩ = some ⟨p + v.stride_, 0⟩ := by
  have h1 : p ≠ (v.base.length : Int) := by omega
  have ha := advance_fwd_free p v.stride_ v.base.length (by omega) (by omega)
  simp only [adaptor.next, base_end, h1, ha, if_true, ne_eq, not_false_eq_true, offset_t_zero,
    Int.add_zero]

theorem next_last (v : stride_view α) (hS : 0 < v.stride_) (p : Int)
    (h : p < v.base.length) (h' : (v.base.length : Int) ≤ p + v.stride_) :
    adaptor.next v ⟨p, 0⟩ = some ⟨v.base.length, offset_t v (p + v.stride_ - v.base.length)⟩ := by
  have h1 : p ≠ (v.base.length : Int) := by omega
  have ha := advance_fwd_clamp p v.stride_ v.base.length (by omega) (by omega) (by omega)
  simp only [adaptor.next, base_end, h1, ha, if_true, ne_eq, not_false_eq_true, Int.add_zero]

theorem next_at_end (v : stride_view α) (o : Int) :
    adaptor.next v ⟨v.base.length, o⟩ = none := by
  simp [adaptor.next, base_end]

theorem clean_resolved (v : stride_view α) (c : cursor) (h : c.offset ≠ -1) :
    adaptor.clean v c = c := by
  simp [adaptor.clean, h]

theorem clean_unresolved (v : stride_view α) (p : Int) :
    adaptor.clean v ⟨p, -1⟩ = ⟨p, adaptor.calc_offset v⟩ := by
  simp [adaptor.clean]

theorem prev_resolved (v : stride_view α) (p o : Int) (ho0 : 0 ≤ o)
    (ho : o < v.stride_) (hp : v.stride_ - o ≤ p) :
    adaptor.prev v ⟨p, o⟩ = some ⟨p - v.stride_ + o, 0⟩ := by
  have hc : adaptor.clean v ⟨p, o⟩ = ⟨p, o⟩ := clean_resolved v _ (by simp; omega)
  by_cases hq : p + (-v.stride_ + o) ≤ 0
  · have ha := advance_bwd_clamp p (-v.stride_ + o) 0 (by omega) (by omega) hq
    have e1 : (0 : Int) = p - v.stride_ + o := by omega
    have e2 : p + (-v.stride_ + o) - 0 = 0 := by omega
    simp only [adaptor.prev, hc, base_begin, ha, e2, offset_t_zero, if_true, ← e1]
  · have ha := advance_bwd_free p (-v.stride_ + o) 0 (by omega) (by omega)
    have e1 : p + (-v.stride_ + o) = p - v.stride_ + o := by omega
    simp only [adaptor.prev, hc, base_begin, ha, offset_t_zero, if_true, e1]

theorem prev_unresolved (v : stride_view α) (p : Int) :
    adaptor.prev v ⟨p, -1⟩ = adaptor.prev v ⟨p, adaptor.calc_offset v⟩ := by
  by_cases h : adaptor.calc_offset v = -1
  · rw [h]
  · have hc : adaptor.clean v ⟨p, adaptor.calc_offset v⟩ = ⟨p, adaptor.calc_offset v⟩ :=
      clean_resolved v _ h
    simp only [adaptor.prev, clean_unresolved, hc]

theorem next_n_snoc (v : stride_view α) (n : Nat) (c : cursor) :
    next_n v (n + 1) c = (next_n v n c).bind (adaptor.next v) := by
  induction n generalizing c with
  | zero => simp [next_n]
  | succ n ih =>
    rw [next_n]
    cases hx : adaptor.next v c with
    | none => simp [next_n, hx]
    | some c1 => simp only [Option.some_bind]; rw [ih c1]; simp [next_n, hx]

/-- The cursor `k` calls of `next` produce from the begin cursor, in closed form. -/
theorem next_n_begin (v : stride_view α) (hS : 0 < v.stride_) (k : Nat) :
    next_n v k (begin_adaptor v) =
      if (k : Int) * v.stride_ < v.base.length then some ⟨(k : Int) * v.stride_, 0⟩
      else if (k : Int) * v.stride_ - v.stride_ < v.base.length then
        some ⟨v.base.length, offset_t v ((k : Int) * v.stride_ - v.base.length)⟩
      else none := by
  have hL : (0 : Int) ≤ v.base.length := Int.ofNat_nonneg _
  induction k with
  | zero =>
    by_cases h0 : (0 : Int) < v.base.length
    · simp [next_n, begin_adaptor, base_begin, offset_t_zero, h0]
    · have hz : (v.base.length : Int) = 0 := by omega
      simp [next_n, begin_adaptor, base_begin, offset_t_zero, hz, hS]
  | succ k ih =>
    rw [next_n_snoc, ih]
    have hk : ((k + 1 : Nat) : Int) * v.stride_ = (k : Int) * v.stride_ + v.stride_ := by
      push_cast; rw [Int.add_mul]; omega
    rw [hk]
    by_cases h1 : (k : Int) * v.stride_ < v.base.length
    · simp only [h1, if_true, Option.some_bind]
      by_cases h2 : (k : Int) * v.stride_ + v.stride_ < v.base.length
      · simp only [h2, if_true]
        exact next_inner v hS _ h2
      · have h3 : (k : Int) * v.stride_ + v.stride_ - v.stride_ < v.base.length := by omega
        simp only [h2, if_false, h3, if_true]
        exact next_last v hS _ h1 (by omega)
    · have h2 : ¬ ((k : Int) * v.stride_ + v.stride_ < v.base.length) := by omega
      have h3 : ¬ ((k : Int) * v.stride_ + v.stride_ - v.stride_ < v.base.length) := by omega
      simp only [h1, h2, h3, if_false]
      by_cases h4 : (k : Int) * v.stride_ - v.stride_ < v.base.length
      · simp only [h4, if_true, Option.some_bind]
        exact next_at_end v _
      · simp only [h4, if_false, Option.none_bind]

/-! ## Size -/

theorem size_no_wrap (w : Nat) (v : stride_view α) (hS : 0 < v.stride_)
    (hSw : v.stride_ < 2 ^ (w - 1)) (hL : v.base.length < 2 ^ (w - 1)) :
    size w v = (v.base.length + v.stride_.toNat - 1) / v.stride_.toNat := by
  obtain ⟨s, hs⟩ := Int.eq_ofNat_of_zero_le (le_of_lt hS)
  have hw : 1 ≤ w := by
    rcases Nat.eq_zero_or_pos w with h | h
    · subst h; simp at hSw; omega
    · exact h
  have h2 : 2 ^ w = 2 * 2 ^ (w - 1) := by
    conv_lhs => rw [show w = (w - 1) + 1 by omega]
    rw [pow_succ]; ring
  have hs' : s < 2 ^ (w - 1) := by
    rw [hs] at hSw; exact_mod_cast hSw
  have hs0 : 0 < s := by rw [hs] at hS; exact_mod_cast hS
  have e1 : (v.stride_ % (2 ^ w : Int)).toNat = s := by
    rw [hs]
    have : ((s : Int) % (2 ^ w : Int)) = ((s % 2 ^ w : Nat) : Int) := by push_cast; rfl
    rw [this, Int.toNat_ofNat]
    exact Nat.mod_eq_of_lt (by omega)
  have e2 : v.stride_.toNat = s := by rw [hs]; exact Int.toNat_ofNat s
  unfold size
  simp only [e1, e2]
  have e3 : v.base.length % 2 ^ w = v.base.length := Nat.mod_eq_of_lt (by omega)
  have e4 : (v.base.length + s) % 2 ^ w = v.base.length + s := Nat.mod_eq_of_lt (by omega)
  have e5 : (v.base.length + s + 2 ^ w - 1) % 2 ^ w = v.base.length + s - 1 := by
    have : v.base.length + s + 2 ^ w - 1 = (v.base.length + s - 1) + 2 ^ w := by omega
    rw [this, Nat.add_mod_right]
    exact Nat.mod_eq_of_lt (by omega)
  rw [e3, e4, e5]

theorem div_eq_ceil (L s : Nat) (hs : 0 < s) :
    (L + s - 1) / s = ⌈(L : ℚ) / ((s : Int) : ℚ)⌉₊ := by
  have h1 : (L + s - 1) / s * s ≤ L + s - 1 := Nat.div_mul_le_self _ _
  have h2 : L + s - 1 < ((L + s - 1) / s + 1) * s := by
    have := Nat.lt_div_mul_add (a := L + s - 1) hs
    rw [Nat.add_mul]; omega
  rw [Nat.add_mul] at h2
  have hq : ((⌈(L : ℚ) / ((s : Int) : ℚ)⌉₊ : Nat) : Int) = (((L + s - 1) / s : Nat) : Int) := by
    apply ceil_eq_of_bounds L (s : Int) _ (by exact_mod_cast hs)
    · have : (((L + s - 1) / s * s : Nat) : Int) < (L : Int) + (s : Int) := by
        have : (L + s - 1) / s * s < L + s := by omega
        exact_mod_cast this
      push_cast at this ⊢
      omega
    · have : L ≤ (L + s - 1) / s * s := by omega
      exact_mod_cast this
  exact_mod_cast hq.symm

theorem size_eq_count (w : Nat) (v : stride_view α) (hS : 0 < v.stride_)
    (hSw : v.stride_ < 2 ^ (w - 1)) (hL : v.base.length < 2 ^ (w - 1)) :
    size w v = ⌈(v.base.length : ℚ) / (v.stride_ : ℚ)⌉₊ := by
  have h := size_no_wrap w v hS hSw hL
  obtain ⟨s, hs⟩ := Int.eq_ofNat_of_zero_le (le_of_lt hS)
  have hs0 : 0 < s := by rw [hs] at hS; exact_mod_cast hS
  rw [h, hs, Int.toNat_ofNat]
  exact div_eq_ceil _ s hs0

/-! ## Forward traversal -/

theorem read_at (v : stride_view α) (p o : Int) (h0 : 0 ≤ p) :
    read v ⟨p, o⟩ = v.base[p.toNat]? := by
  simp [read, h0]

theorem traverse_from (v : stride_view α) (hS : 0 < v.stride_) (d : Nat) :
    ∀ (j fuel : Nat) (c : cursor), j + d = ⌈(v.base.length : ℚ) / (v.stride_ : ℚ)⌉₊ → d < fuel →
      next_n v j (begin_adaptor v) = some c →
      ∃ xs ce, traverse v fuel c = some (xs, d, ce) ∧ ce.it = base_end v ∧
        next_n v (j + d) (begin_adaptor v) = some ce ∧
        xs.map some = (List.range' j d).map (fun (k : Nat) => v.base[((k : Int) * v.stride_).toNat]?) := by
  have hb := ceil_bounds v.base.length v.stride_ hS
  have hL : (0 : Int) ≤ v.base.length := Int.ofNat_nonneg _
  induction d with
  | zero =>
    intro j fuel c hj hf hc
    obtain ⟨f, rfl⟩ : ∃ f, fuel = f + 1 := ⟨fuel - 1, by omega⟩
    simp only [Nat.add_zero] at hj
    rw [next_n_begin v hS, hj] at hc
    have h1 : ¬ ((⌈(v.base.length : ℚ) / (v.stride_ : ℚ)⌉₊ : Int) * v.stride_ < v.base.length) := by
      omega
    simp only [h1, hb.1, if_false, if_true, Option.some.injEq] at hc
    refine ⟨[], c, ?_, ?_, ?_, by simp⟩
    · subst hc; simp [traverse, base_end]
    · subst hc; simp [base_end]
    · rw [Nat.add_zero, next_n_begin v hS, hj]
      simp only [h1, hb.1, if_false, if_true, hc]
  | succ d ih =>
    intro j fuel c hj hf hc
    obtain ⟨f, rfl⟩ : ∃ f, fuel = f + 1 := ⟨fuel - 1, by omega⟩
    have hjm : (j : Int) < (⌈(v.base.length : ℚ) / (v.stride_ : ℚ)⌉₊ : Int) := by
      have : j < ⌈(v.base.length : ℚ) / (v.stride_ : ℚ)⌉₊ := by omega
      exact_mod_cast this
    have hlt := mul_lt_of_lt_index _ _ _ _ hS hb.1 hjm
    have hj0 : (0 : Int) ≤ (j : Int) * v.stride_ :=
      Int.mul_nonneg (Int.ofNat_nonneg _) (le_of_lt hS)
    have hc' := hc
    rw [next_n_begin v hS] at hc'
    simp only [hlt, if_true, Option.some.injEq] at hc'
    have hnext : next_n v (j + 1) (begin_adaptor v) = adaptor.next v c := by
      rw [next_n_snoc, hc]; rfl
    have hsome : ∃ c1, adaptor.next v c = some c1 := by
      rw [← hc']
      by_cases h2 : (j : Int) * v.stride_ + v.stride_ < v.base.length
      · exact ⟨_, next_inner v hS _ h2⟩
      · exact ⟨_, next_last v hS _ hlt (by omega)⟩
    obtain ⟨c1, hc1⟩ := hsome
    obtain ⟨xs, ce, ht, hce, hn, hxs⟩ := ih (j + 1) f c1 (by omega) (by omega) (by rw [hnext, hc1])
    have hidx : ((j : Int) * v.stride_).toNat < v.base.length := by omega
    have hread : read v c = some (v.base[((j : Int) * v.stride_).toNat]) := by
      rw [← hc', read_at v _ _ hj0]
      exact List.getElem?_eq_getElem hidx
    have hne : c.it ≠ base_end v := by
      rw [← hc']; simp only [base_end]; omega
    refine ⟨v.base[((j : Int) * v.stride_).toNat] :: xs, ce, ?_, hce, ?_, ?_⟩
    · simp only [traverse, hne, if_false, hread, hc1, ht, Option.map_some']
    · rw [← hn]; congr 1; omega
    · rw [List.range'_succ, List.map_cons, List.map_cons, hxs,
        List.getElem?_eq_getElem hidx]

theorem toNat_index (k : Nat) (S : Int) (hS : 0 < S) : ((k : Int) * S).toNat = k * S.toNat := by
  obtain ⟨s, rfl⟩ := Int.eq_ofNat_of_zero_le (le_of_lt hS)
  rw [Int.toNat_ofNat, ← Int.ofNat_mul, Int.toNat_ofNat]

/-- C1: for every base sequence and every stride `S > 0`, the loop that starts at the
begin cursor (base begin, offset 0) and applies `adaptor::next` until the underlying
position equals the base end reads exactly `base[0], base[S], base[2S], …` in that
order, `ceil(L / S)` elements in total, and reaches the base end after exactly
`ceil(L / S)` calls of `next`. -/
theorem forward_traversal_visits_every_stride (v : stride_view α) (hS : 0 < v.stride_)
    (fuel : Nat) (hf : ⌈(v.base.length : ℚ) / (v.stride_ : ℚ)⌉₊ < fuel) :
    ∃ xs ce,
      traverse v fuel (begin_adaptor v) =
        some (xs, ⌈(v.base.length : ℚ) / (v.stride_ : ℚ)⌉₊, ce) ∧
      ce.it = base_end v ∧
      next_n v ⌈(v.base.length : ℚ) / (v.stride_ : ℚ)⌉₊ (begin_adaptor v) = some ce ∧
      xs.map some =
        (List.range ⌈(v.base.length : ℚ) / (v.stride_ : ℚ)⌉₊).map
          (fun (k : Nat) => v.base[k * v.stride_.toNat]?) := by
  obtain ⟨xs, ce, h1, h2, h3, h4⟩ :=
    traverse_from v hS ⌈(v.base.length : ℚ) / (v.stride_ : ℚ)⌉₊ 0 fuel (begin_adaptor v)
      (by omega) hf rfl
  refine ⟨xs, ce, h1, h2, ?_, ?_⟩
  · rw [Nat.zero_add] at h3; exact h3
  · rw [h4, List.range_eq_range']
    apply List.map_congr_left
    intro k _
    rw [toNat_index k _ hS]

theorem forward_traversal_visits_every_stride_witness :
    ⌈(((⟨[10, 11, 12, 13, 14, 15, 16], 3, true, true⟩ : stride_view Nat).base.length : ℚ)) /
        (((⟨[10, 11, 12, 13, 14, 15, 16], 3, true, true⟩ : stride_view Nat).stride_ : ℚ))⌉₊ < 4 ∧
    ∃ xs ce,
      traverse (⟨[10, 11, 12, 13, 14, 15, 16], 3, true, true⟩ : stride_view Nat) 4
          (begin_adaptor (⟨[10, 11, 12, 13, 14, 15, 16], 3, true, true⟩ : stride_view Nat)) =
        some (xs, 3, ce) ∧ xs = [10, 13, 16] := by
  have hc : ⌈(((⟨[10, 11, 12, 13, 14, 15, 16], 3, true, true⟩ : stride_view Nat).base.length : ℚ)) /
        (((⟨[10, 11, 12, 13, 14, 15, 16], 3, true, true⟩ : stride_view Nat).stride_ : ℚ))⌉₊ = 3 :=
    (div_eq_ceil 7 3 (by decide)).symm
  have hlt : ⌈(((⟨[10, 11, 12, 13, 14, 15, 16], 3, true, true⟩ : stride_view Nat).base.length : ℚ)) /
        (((⟨[10, 11, 12, 13, 14, 15, 16], 3, true, true⟩ : stride_view Nat).stride_ : ℚ))⌉₊ < 4 := by
    rw [hc]; decide
  obtain ⟨xs, ce, h1, _, _, _⟩ :=
    forward_traversal_visits_every_stride
      (⟨[10, 11, 12, 13, 14, 15, 16], 3, true, true⟩ : stride_view Nat) (by decide) 4 hlt
  refine ⟨hlt, xs, ce, ?_, ?_⟩
  · rw [h1, hc]
  · have h5 : traverse (⟨[10, 11, 12, 13, 14, 15, 16], 3, true, true⟩ : stride_view Nat) 4
        (begin_adaptor (⟨[10, 11, 12, 13, 14, 15, 16], 3, true, true⟩ : stride_view Nat)) =
        some ([10, 13, 16], 3, ⟨7, 2⟩) := by decide
    rw [h5] at h1
    simp only [Option.some.injEq, Prod.mk.injEq] at h1
    exact h1.1.symm

/-- C2: for every base length `L` and stride `S > 0` that the `w`-bit difference type
can hold, `stride_view::size()`, computed as `(L + S - 1) / S` in unsigned arithmetic
with integer division, does not wrap and equals `ceil(L / S)`. -/
theorem size_eq_ceil (w : Nat) (v : stride_view α) (hS : 0 < v.stride_)
    (hSw : v.stride_ < 2 ^ (w - 1)) (hL : v.base.length < 2 ^ (w - 1)) :
    size w v = (v.base.length + v.stride_.toNat - 1) / v.stride_.toNat ∧
      size w v = ⌈(v.base.length : ℚ) / (v.stride_ : ℚ)⌉₊ := by
  exact ⟨size_no_wrap w v hS hSw hL, size_eq_count w v hS hSw hL⟩

theorem size_eq_ceil_witness :
    size 64 (⟨[10, 11, 12, 13, 14, 15, 16], 3, true, true⟩ : stride_view Nat) = (7 + 3 - 1) / 3 ∧
      size 64 (⟨[10, 11, 12, 13, 14, 15, 16], 3, true, true⟩ : stride_view Nat) =
        ⌈((7 : Nat) : ℚ) / ((3 : Int) : ℚ)⌉₊ :=
  size_eq_ceil 64 (⟨[10, 11, 12, 13, 14, 15, 16], 3, true, true⟩ : stride_view Nat)
    (by decide) (by norm_num) (by norm_num)

/-! ## Backward traversal -/

theorem succ_mul_cast (k : Nat) (S : Int) : ((k + 1 : Nat) : Int) * S = (k : Int) * S + S := by
  push_cast; rw [Int.add_mul]; omega

theorem prev_chain (v : stride_view α) (hS : 0 < v.stride_) (k : Nat) :
    ∀ p : Int, (k : Int) * v.stride_ ≤ p →
      prev_n v k ⟨p, 0⟩ = some ⟨p - (k : Int) * v.stride_, 0⟩ := by
  induction k with
  | zero => intro p _; simp [prev_n]
  | succ k ih =>
    intro p hp
    rw [succ_mul_cast] at hp ⊢
    have hk : (0 : Int) ≤ (k : Int) * v.stride_ :=
      Int.mul_nonneg (Int.ofNat_nonneg _) (le_of_lt hS)
    rw [prev_n, prev_resolved v p 0 (le_refl _) hS (by omega)]
    simp only [Option.some_bind]
    rw [ih (p - v.stride_ + 0) (by omega)]
    congr 2; omega

theorem count_pos (v : stride_view α) (hS : 0 < v.stride_) (hL : 0 < v.base.length) :
    0 < ⌈(v.base.length : ℚ) / (v.stride_ : ℚ)⌉₊ := by
  have hb := (ceil_bounds v.base.length v.stride_ hS).2
  have hL' : (0 : Int) < v.base.length := by exact_mod_cast hL
  rcases Nat.eq_zero_or_pos ⌈(v.base.length : ℚ) / (v.stride_ : ℚ)⌉₊ with h | h
  · rw [h] at hb; simp only [Nat.cast_zero, zero_mul] at hb; omega
  · exact h

theorem stride_le_count_mul (v : stride_view α) (hS : 0 < v.stride_) (hL : 0 < v.base.length) :
    v.stride_ ≤ (⌈(v.base.length : ℚ) / (v.stride_ : ℚ)⌉₊ : Int) * v.stride_ := by
  have h1 : (1 : Int) ≤ (⌈(v.base.length : ℚ) / (v.stride_ : ℚ)⌉₊ : Int) := by
    exact_mod_cast count_pos v hS hL
  have := Int.mul_le_mul_of_nonneg_right h1 (le_of_lt hS)
  omega

theorem prev_from_end (v : stride_view α) (hS : 0 < v.stride_) (hL : 0 < v.base.length)
    (c : cursor) (hit : c.it = base_end v)
    (hoff : c.offset = -1 ∨ c.offset = adaptor.calc_offset v) :
    adaptor.prev v c =
      some ⟨(⌈(v.base.length : ℚ) / (v.stride_ : ℚ)⌉₊ : Int) * v.stride_ - v.stride_, 0⟩ := by
  have hb := ceil_bounds v.base.length v.stride_ hS
  have hco := calc_offset_eq v hS _ hb.1 hb.2
  have hr := calc_offset_range v hS
  have hm := stride_le_count_mul v hS hL
  have hc : adaptor.prev v c = adaptor.prev v ⟨v.base.length, adaptor.calc_offset v⟩ := by
    obtain ⟨it, off⟩ := c
    simp only [base_end] at hit
    subst hit
    rcases hoff with h | h
    · simp only at h; subst h; exact prev_unresolved v _
    · simp only at h; subst h; rfl
  rw [hc, prev_resolved v _ _ hr.1 hr.2 (by omega)]
  congr 2; omega

theorem traverse_back_from (v : stride_view α) (hS : 0 < v.stride_) (j : Nat) :
    ∀ fuel : Nat, j < fuel → (j : Int) * v.stride_ - v.stride_ < v.base.length →
      ∃ ys, traverse_back v fuel ⟨(j : Int) * v.stride_, 0⟩ = some (ys, j, ⟨0, 0⟩) ∧
        ys.map some =
          (List.range j).reverse.map (fun (k : Nat) => v.base[((k : Int) * v.stride_).toNat]?) := by
  induction j with
  | zero =>
    intro fuel hf _
    obtain ⟨f, rfl⟩ : ∃ f, fuel = f + 1 := ⟨fuel - 1, by omega⟩
    exact ⟨[], by simp [traverse_back, base_begin], by simp⟩
  | succ j ih =>
    intro fuel hf hlt
    obtain ⟨f, rfl⟩ : ∃ f, fuel = f + 1 := ⟨fuel - 1, by omega⟩
    rw [succ_mul_cast] at hlt ⊢
    have hj0 : (0 : Int) ≤ (j : Int) * v.stride_ :=
      Int.mul_nonneg (Int.ofNat_nonneg _) (le_of_lt hS)
    obtain ⟨ys, hys, hmap⟩ := ih f (by omega) (by omega)
    have hidx : ((j : Int) * v.stride_).toNat < v.base.length := by omega
    have hne : ¬ ((j : Int) * v.stride_ + v.stride_ = base_begin v) := by
      simp only [base_begin]; omega
    have hprev : adaptor.prev v ⟨(j : Int) * v.stride_ + v.stride_, 0⟩ =
        some ⟨(j : Int) * v.stride_, 0⟩ := by
      rw [prev_resolved v _ 0 (le_refl _) hS (by omega)]
      congr 2; omega
    refine ⟨v.base[((j : Int) * v.stride_).toNat] :: ys, ?_, ?_⟩
    · simp only [traverse_back, hne, if_false, hprev, read_at v _ _ hj0,
        List.getElem?_eq_getElem hidx, hys, Option.map_some']
    · rw [List.range_succ, List.reverse_append, List.reverse_singleton, List.singleton_append,
        List.map_cons, List.map_cons, hmap, List.getElem?_eq_getElem hidx]

theorem begin_adaptor_eq (v : stride_view α) : begin_adaptor v = ⟨0, 0⟩ := by
  simp [begin_adaptor, base_begin, offset_t_zero]

theorem end_adaptor_state (v : stride_view α) (hb : v.bidirectional = true) :
    (end_adaptor v).it = base_end v ∧
      ((end_adaptor v).offset = -1 ∨ (end_adaptor v).offset = adaptor.calc_offset v) := by
  refine ⟨rfl, ?_⟩
  cases hs : v.sized <;> simp [end_adaptor, offset_t, hb, hs]

theorem traverse_back_from_end (v : stride_view α) (hS : 0 < v.stride_)
    (hL : 0 < v.base.length) (c : cursor) (hit : c.it = base_end v)
    (hoff : c.offset = -1 ∨ c.offset = adaptor.calc_offset v) (fuel : Nat)
    (hf : ⌈(v.base.length : ℚ) / (v.stride_ : ℚ)⌉₊ < fuel) :
    ∃ ys, traverse_back v fuel c =
        some (ys, ⌈(v.base.length : ℚ) / (v.stride_ : ℚ)⌉₊, ⟨0, 0⟩) ∧
      ys.map some = (List.range ⌈(v.base.length : ℚ) / (v.stride_ : ℚ)⌉₊).reverse.map
        (fun (k : Nat) => v.base[((k : Int) * v.stride_).toNat]?) := by
  have hb := ceil_bounds v.base.length v.stride_ hS
  have hprev := prev_from_end v hS hL c hit hoff
  have hpos := count_pos v hS hL
  obtain ⟨j, hj⟩ : ∃ j, ⌈(v.base.length : ℚ) / (v.stride_ : ℚ)⌉₊ = j + 1 :=
    ⟨⌈(v.base.length : ℚ) / (v.stride_ : ℚ)⌉₊ - 1, by omega⟩
  rw [hj] at hprev hb hf ⊢
  rw [succ_mul_cast] at hprev hb
  obtain ⟨f, rfl⟩ : ∃ f, fuel = f + 1 := ⟨fuel - 1, by omega⟩
  have hj0 : (0 : Int) ≤ (j : Int) * v.stride_ :=
    Int.mul_nonneg (Int.ofNat_nonneg _) (le_of_lt hS)
  have e1 : (j : Int) * v.stride_ + v.stride_ - v.stride_ = (j : Int) * v.stride_ := by omega
  rw [e1] at hprev
  obtain ⟨ys, hys, hmap⟩ := traverse_back_from v hS j f (by omega) (by omega)
  have hidx : ((j : Int) * v.stride_).toNat < v.base.length := by omega
  have hne : ¬ (c.it = base_begin v) := by
    rw [hit]; simp only [base_begin, base_end]; omega
  refine ⟨v.base[((j : Int) * v.stride_).toNat] :: ys, ?_, ?_⟩
  · simp only [traverse_back, hne, if_false, hprev, read_at v _ _ hj0,
      List.getElem?_eq_getElem hidx, hys, Option.map_some']
  · rw [List.range_succ, List.reverse_append, List.reverse_singleton, List.singleton_append,
      List.map_cons, List.map_cons, hmap, List.getElem?_eq_getElem hidx]

theorem prev_n_from_end (v : stride_view α) (hS : 0 < v.stride_)
    (hL : 0 < v.base.length) (c : cursor) (hit : c.it = base_end v)
    (hoff : c.offset = -1 ∨ c.offset = adaptor.calc_offset v) (k : Nat)
    (hk : k + 1 ≤ ⌈(v.base.length : ℚ) / (v.stride_ : ℚ)⌉₊) :
    prev_n v (k + 1) c =
      some ⟨(⌈(v.base.length : ℚ) / (v.stride_ : ℚ)⌉₊ : Int) * v.stride_ -
        ((k + 1 : Nat) : Int) * v.stride_, 0⟩ := by
  have hk' : ((k + 1 : Nat) : Int) ≤ (⌈(v.base.length : ℚ) / (v.stride_ : ℚ)⌉₊ : Int) := by
    exact_mod_cast hk
  have hmul := Int.mul_le_mul_of_nonneg_right hk' (le_of_lt hS)
  rw [succ_mul_cast] at hmul ⊢
  rw [prev_n, prev_from_end v hS hL c hit hoff]
  simp only [Option.some_bind]
  rw [prev_chain v hS k _ (by omega)]
  congr 2; omega

/-- C3: for every backward-capable base of length `L ≥ 1` and stride `S > 0`, with
`m = ceil(L / S)`: from the end cursor (base end, offset unresolved or equal to
`calc_offset()`, which is what `end_adaptor` builds) `m` calls of `adaptor::prev` read
`base[(m-1)S], …, base[S], base[0]`, the exact reverse of the forward traversal, and
end at the begin position with offset 0; the first element visited backward is the
last element visited forward. -/
theorem backward_traversal_reverses_forward (v : stride_view α) (hbd : v.bidirectional = true)
    (hS : 0 < v.stride_) (hL : 0 < v.base.length) (c : cursor) (hit : c.it = base_end v)
    (hoff : c.offset = -1 ∨ c.offset = adaptor.calc_offset v) (fuel : Nat)
    (hf : ⌈(v.base.length : ℚ) / (v.stride_ : ℚ)⌉₊ < fuel) :
    ((end_adaptor v).it = base_end v ∧
      ((end_adaptor v).offset = -1 ∨ (end_adaptor v).offset = adaptor.calc_offset v)) ∧
    ∃ xs ce,
      traverse v fuel (begin_adaptor v) =
        some (xs, ⌈(v.base.length : ℚ) / (v.stride_ : ℚ)⌉₊, ce) ∧
      traverse_back v fuel c =
        some (xs.reverse, ⌈(v.base.length : ℚ) / (v.stride_ : ℚ)⌉₊, begin_adaptor v) ∧
      prev_n v ⌈(v.base.length : ℚ) / (v.stride_ : ℚ)⌉₊ c = some (begin_adaptor v) ∧
      (begin_adaptor v).offset = 0 ∧
      xs.reverse.map some =
        (List.range ⌈(v.base.length : ℚ) / (v.stride_ : ℚ)⌉₊).reverse.map
          (fun (k : Nat) => v.base[k * v.stride_.toNat]?) ∧
      xs.reverse.head? = xs.getLast? := by
  refine ⟨end_adaptor_state v hbd, ?_⟩
  obtain ⟨xs, ce, h1, _, _, h4⟩ :=
    traverse_from v hS ⌈(v.base.length : ℚ) / (v.stride_ : ℚ)⌉₊ 0 fuel (begin_adaptor v)
      (by omega) hf rfl
  obtain ⟨ys, hy1, hy2⟩ := traverse_back_from_end v hS hL c hit hoff fuel hf
  have hrev : ys = xs.reverse := by
    apply List.map_injective_iff.mpr (Option.some_injective α)
    rw [hy2, List.map_reverse, List.map_reverse, h4, ← List.range_eq_range']
  have hpos := count_pos v hS hL
  obtain ⟨j, hj⟩ : ∃ j, ⌈(v.base.length : ℚ) / (v.stride_ : ℚ)⌉₊ = j + 1 :=
    ⟨⌈(v.base.length : ℚ) / (v.stride_ : ℚ)⌉₊ - 1, by omega⟩
  refine ⟨xs, ce, h1, ?_, ?_, ?_, ?_, ?_⟩
  · rw [hy1, hrev, begin_adaptor_eq]
  · have := prev_n_from_end v hS hL c hit hoff j (by omega)
    rw [← hj] at this
    rw [this, begin_adaptor_eq]
    congr 2; omega
  · rw [begin_adaptor_eq]
  · rw [← hrev, hy2]
    apply List.map_congr_left
    intro k _
    rw [toNat_index k _ hS]
  · rw [List.head?_reverse]

theorem count_example (b s : Bool) :
    ⌈(((⟨[10, 11, 12, 13, 14, 15, 16], 3, b, s⟩ : stride_view Nat).base.length : ℚ)) /
        (((⟨[10, 11, 12, 13, 14, 15, 16], 3, b, s⟩ : stride_view Nat).stride_ : ℚ))⌉₊ = 3 :=
  (div_eq_ceil 7 3 (by decide)).symm

theorem backward_traversal_reverses_forward_witness :
    ∃ xs ce,
      traverse (⟨[10, 11, 12, 13, 14, 15, 16], 3, true, false⟩ : stride_view Nat) 4
          (begin_adaptor (⟨[10, 11, 12, 13, 14, 15, 16], 3, true, false⟩ : stride_view Nat)) =
        some (xs, 3, ce) ∧
      traverse_back (⟨[10, 11, 12, 13, 14, 15, 16], 3, true, false⟩ : stride_view Nat) 4 ⟨7, -1⟩ =
        some (xs.reverse, 3, ⟨0, 0⟩) := by
  have hc := count_example true false
  obtain ⟨_, xs, ce, h1, h2, _⟩ :=
    backward_traversal_reverses_forward
      (⟨[10, 11, 12, 13, 14, 15, 16], 3, true, false⟩ : stride_view Nat) rfl (by decide)
      (by decide) ⟨7, -1⟩ rfl (Or.inl rfl) 4 (by rw [hc]; decide)
  exact ⟨xs, ce, by rw [h1, hc], by rw [h2, hc, begin_adaptor_eq]⟩

/-! ## Distance and jump -/

theorem next_n_add (v : stride_view α) (a b : Nat) (c : cursor) :
    next_n v (a + b) c = (next_n v a c).bind (next_n v b) := by
  induction a generalizing c with
  | zero => simp [next_n]
  | succ a ih =>
    rw [show a + 1 + b = (a + b) + 1 by omega, next_n, next_n]
    cases hx : adaptor.next v c with
    | none => simp
    | some c1 => simp only [Option.some_bind]; exact ih c1

/-- The two shapes of a cursor at index `k`: an inner position `k * S` with offset 0,
or the base end at index `ceil(L / S)` with an unresolved or resolved offset. -/
theorem at_index_cases (v : stride_view α) (hbd : v.bidirectional = true) (hS : 0 < v.stride_)
    (k : Nat) (c : cursor) (h : at_index v k c) :
    ((k : Int) * v.stride_ < v.base.length ∧ c = ⟨(k : Int) * v.stride_, 0⟩) ∨
      (k = ⌈(v.base.length : ℚ) / (v.stride_ : ℚ)⌉₊ ∧ c.it = v.base.length ∧
        (c.offset = -1 ∨ c.offset = adaptor.calc_offset v)) := by
  unfold at_index at h
  rw [next_n_begin v hS k] at h
  by_cases h1 : (k : Int) * v.stride_ < v.base.length
  · left
    simp only [h1, if_true, Option.some.injEq, Option.map_some', base_end] at h
    rcases h with h | ⟨h, _⟩
    · exact ⟨h1, h.symm⟩
    · omega
  · by_cases h2 : (k : Int) * v.stride_ - v.stride_ < v.base.length
    · right
      have hk : ((⌈(v.base.length : ℚ) / (v.stride_ : ℚ)⌉₊ : Nat) : Int) = (k : Int) :=
        ceil_eq_of_bounds _ _ _ hS h2 (by omega)
      have hco := calc_offset_eq v hS (k : Int) h2 (by omega)
      simp only [h1, h2, if_true, if_false, Option.some.injEq, Option.map_some',
        offset_t_bidir v hbd] at h
      refine ⟨by exact_mod_cast hk.symm, ?_⟩
      rcases h with h | ⟨_, h | h⟩
      · subst h; exact ⟨rfl, Or.inr hco.symm⟩
      · subst h; exact end_adaptor_state v hbd
      · subst h; exact ⟨rfl, Or.inl rfl⟩
    · simp [h1, h2] at h

theorem clean_at_end (v : stride_view α) (c : cursor)
    (hoff : c.offset = -1 ∨ c.offset = adaptor.calc_offset v) :
    adaptor.clean v c = ⟨c.it, adaptor.calc_offset v⟩ := by
  obtain ⟨it, off⟩ := c
  by_cases h : off = -1
  · subst h; exact clean_unresolved v it
  · have : off = adaptor.calc_offset v := by
      rcases hoff with h' | h'
      · exact absurd h' h
      · exact h'
    subst this
    exact clean_resolved v _ h

/-- After `clean`, position plus offset of a cursor at index `k` is `k * S`. -/
theorem at_index_clean (v : stride_view α) (hbd : v.bidirectional = true) (hS : 0 < v.stride_)
    (k : Nat) (c : cursor) (h : at_index v k c) :
    (adaptor.clean v c).it + (adaptor.clean v c).offset = (k : Int) * v.stride_ := by
  rcases at_index_cases v hbd hS k c h with ⟨_, hc⟩ | ⟨hk, hit, hoff⟩
  · subst hc
    rw [clean_resolved v _ (by simp)]
    simp
  · have hb := ceil_bounds v.base.length v.stride_ hS
    rw [clean_at_end v c hoff, calc_offset_eq v hS _ hb.1 hb.2, hk, hit]
    simp

theorem distance_to_at_index (v : stride_view α) (hbd : v.bidirectional = true)
    (hS : 0 < v.stride_) (i j : Nat) (a b : cursor) (ha : at_index v i a)
    (hb : at_index v j b) :
    adaptor.distance_to v a b = some ((j : Int) - (i : Int), adaptor.clean v a, adaptor.clean v b) := by
  have h1 := at_index_clean v hbd hS i a ha
  have h2 := at_index_clean v hbd hS j b hb
  have hraw : (adaptor.clean v b).it - (adaptor.clean v a).it + (adaptor.clean v b).offset -
      (adaptor.clean v a).offset = ((j : Int) - (i : Int)) * v.stride_ := by
    rw [Int.sub_mul]; omega
  simp only [adaptor.distance_to, hraw, Int.mul_tmod_left, if_true,
    Int.mul_tdiv_cancel _ (ne_of_gt hS)]

theorem begin_at_index (v : stride_view α) : at_index v 0 (begin_adaptor v) :=
  Or.inl rfl

theorem next_n_count (v : stride_view α) (hS : 0 < v.stride_) :
    next_n v ⌈(v.base.length : ℚ) / (v.stride_ : ℚ)⌉₊ (begin_adaptor v) =
      some ⟨v.base.length, offset_t v (adaptor.calc_offset v)⟩ := by
  have hb := ceil_bounds v.base.length v.stride_ hS
  have h1 : ¬ ((⌈(v.base.length : ℚ) / (v.stride_ : ℚ)⌉₊ : Int) * v.stride_ < v.base.length) := by
    omega
  rw [next_n_begin v hS, calc_offset_eq v hS _ hb.1 hb.2]
  simp only [h1, hb.1, if_true, if_false]

theorem end_at_index (v : stride_view α) (hbd : v.bidirectional = true) (hS : 0 < v.stride_)
    (c : cursor) (hit : c.it = base_end v)
    (hoff : c.offset = -1 ∨ c.offset = adaptor.calc_offset v) :
    at_index v ⌈(v.base.length : ℚ) / (v.stride_ : ℚ)⌉₊ c := by
  obtain ⟨it, off⟩ := c
  simp only at hit hoff
  subst hit
  unfold at_index
  rw [next_n_count v hS, offset_t_bidir v hbd]
  rcases hoff with h | h
  · subst h; right; exact ⟨rfl, Or.inr rfl⟩
  · subst h; left; rfl

/-- C5: for every base length `L` and stride `S > 0` (both within the `w`-bit
difference type) over a backward-capable base that supports position subtraction,
`adaptor::distance_to` from the begin cursor to the end cursor returns
`stride_view::size()`, which is `ceil(L / S)`, whether the end cursor's offset is
already resolved or still unresolved on entry. -/
theorem distance_begin_end_eq_size (w : Nat) (v : stride_view α) (hbd : v.bidirectional = true)
    (hS : 0 < v.stride_) (hSw : v.stride_ < 2 ^ (w - 1)) (hL : v.base.length < 2 ^ (w - 1))
    (c : cursor) (hit : c.it = base_end v)
    (hoff : c.offset = -1 ∨ c.offset = adaptor.calc_offset v) :
    adaptor.distance_to v (begin_adaptor v) c =
        some ((size w v : Int), begin_adaptor v, ⟨base_end v, adaptor.calc_offset v⟩) ∧
      size w v = ⌈(v.base.length : ℚ) / (v.stride_ : ℚ)⌉₊ := by
  have hsz := size_eq_count w v hS hSw hL
  refine ⟨?_, hsz⟩
  rw [distance_to_at_index v hbd hS 0 _ _ c (begin_at_index v) (end_at_index v hbd hS c hit hoff),
    clean_at_end v c hoff, hit, hsz, begin_adaptor_eq, clean_resolved v _ (by simp)]
  simp

theorem distance_begin_end_eq_size_witness :
    adaptor.distance_to (⟨[10, 11, 12, 13, 14, 15, 16], 3, true, false⟩ : stride_view Nat)
        ⟨0, 0⟩ ⟨7, -1⟩ = some (3, ⟨0, 0⟩, ⟨7, 2⟩) ∧
      adaptor.distance_to (⟨[10, 11, 12, 13, 14, 15, 16], 3, true, false⟩ : stride_view Nat)
        ⟨0, 0⟩ ⟨7, 2⟩ = some (3, ⟨0, 0⟩, ⟨7, 2⟩) ∧
      size 64 (⟨[10, 11, 12, 13, 14, 15, 16], 3, true, false⟩ : stride_view Nat) = 3 := by
  have h1 := distance_begin_end_eq_size 64
    (⟨[10, 11, 12, 13, 14, 15, 16], 3, true, false⟩ : stride_view Nat) rfl (by decide)
    (by norm_num) (by norm_num) ⟨7, -1⟩ rfl (Or.inl rfl)
  have h2 := distance_begin_end_eq_size 64
    (⟨[10, 11, 12, 13, 14, 15, 16], 3, true, false⟩ : stride_view Nat) rfl (by decide)
    (by norm_num) (by norm_num) ⟨7, 2⟩ rfl (Or.inr (by decide))
  have hs : size 64 (⟨[10, 11, 12, 13, 14, 15, 16], 3, true, false⟩ : stride_view Nat) = 3 := by
    rw [h1.2, count_example]
  rw [hs] at h1 h2
  exact ⟨h1.1, h2.1, hs⟩

/-- C6: for every backward-capable base, stride `S > 0` and any two cursors `a`, `b` of
the same stride view that sit at indices `i` and `j` (the end cursor sitting at index
`ceil(L / S)`), `adaptor::distance_to`, which resolves both offsets and returns
`((b.pos - a.pos) + b.offset - a.offset) / stride`, passes its assertion and returns
the signed element count `j - i`; in particular distance(a, b) = -distance(b, a). -/
theorem distance_is_signed_index_difference (v : stride_view α) (hbd : v.bidirectional = true)
    (hS : 0 < v.stride_) (i j : Nat) (a b : cursor) (ha : at_index v i a)
    (hb : at_index v j b) :
    adaptor.distance_to v a b =
        some ((j : Int) - (i : Int), adaptor.clean v a, adaptor.clean v b) ∧
      adaptor.distance_to v b a =
        some (-((j : Int) - (i : Int)), adaptor.clean v b, adaptor.clean v a) ∧
      (j : Int) - (i : Int) =
        Int.tdiv (((adaptor.clean v b).it - (adaptor.clean v a).it) +
          (adaptor.clean v b).offset - (adaptor.clean v a).offset) v.stride_ := by
  have h1 := distance_to_at_index v hbd hS i j a b ha hb
  have h2 := distance_to_at_index v hbd hS j i b a hb ha
  refine ⟨h1, ?_, ?_⟩
  · rw [h2]; congr 2; omega
  · have e1 := at_index_clean v hbd hS i a ha
    have e2 := at_index_clean v hbd hS j b hb
    have hraw : (adaptor.clean v b).it - (adaptor.clean v a).it + (adaptor.clean v b).offset -
        (adaptor.clean v a).offset = ((j : Int) - (i : Int)) * v.stride_ := by
      rw [Int.sub_mul]; omega
    rw [hraw, Int.mul_tdiv_cancel _ (ne_of_gt hS)]

theorem distance_is_signed_index_difference_witness :
    adaptor.distance_to (⟨[10, 11, 12, 13, 14, 15, 16], 3, true, false⟩ : stride_view Nat)
        ⟨3, 0⟩ ⟨7, -1⟩ = some (2, ⟨3, 0⟩, ⟨7, 2⟩) ∧
      adaptor.distance_to (⟨[10, 11, 12, 13, 14, 15, 16], 3, true, false⟩ : stride_view Nat)
        ⟨7, -1⟩ ⟨3, 0⟩ = some (-2, ⟨7, 2⟩, ⟨3, 0⟩) := by
  have h := distance_is_signed_index_difference
    (⟨[10, 11, 12, 13, 14, 15, 16], 3, true, false⟩ : stride_view Nat) rfl (by decide)
    1 3 ⟨3, 0⟩ ⟨7, -1⟩ (by decide) (by decide)
  exact ⟨h.1, h.2.1⟩

theorem jump_forward (v : stride_view α) (hS : 0 < v.stride_) (p n : Int) (hn : 0 < n)
    (hp : p ≤ v.base.length) :
    adaptor.advance v ⟨p, 0⟩ n =
      if p + n * v.stride_ < v.base.length then ⟨p + n * v.stride_, 0⟩
      else ⟨v.base.length, offset_t v (p + n * v.stride_ - v.base.length)⟩ := by
  have hn0 : n ≠ 0 := by omega
  have hns : 0 < n * v.stride_ := Int.mul_pos hn hS
  have hc : adaptor.clean v ⟨p, 0⟩ = ⟨p, 0⟩ := clean_resolved v _ (by simp)
  by_cases h : p + n * v.stride_ < v.base.length
  · have ha := advance_fwd_free p (n * v.stride_) v.base.length (by omega) h
    simp only [adaptor.advance, hn0, hn, hc, base_end, ha, h, if_true, ne_eq,
      not_false_eq_true, Int.add_zero, offset_t_zero]
  · have ha := advance_fwd_clamp p (n * v.stride_) v.base.length (by omega) hp (by omega)
    simp only [adaptor.advance, hn0, hn, hc, base_end, ha, h, if_true, if_false, ne_eq,
      not_false_eq_true, Int.add_zero]

theorem jump_backward (v : stride_view α) (hS : 0 < v.stride_) (p o n : Int) (hn : n < 0)
    (ho0 : 0 ≤ o) (ho : o < v.stride_) (hp : 0 ≤ p + n * v.stride_ + o) :
    adaptor.advance v ⟨p, o⟩ n = ⟨p + n * v.stride_ + o, 0⟩ := by
  have hn0 : n ≠ 0 := by omega
  have hn1 : ¬ (0 < n) := by omega
  have hn2 : (0 : Int) > n := hn
  have hns : n * v.stride_ ≤ -v.stride_ := by
    have := Int.mul_le_mul_of_nonneg_right (show n ≤ -1 by omega) (le_of_lt hS)
    omega
  have hc : adaptor.clean v ⟨p, o⟩ = ⟨p, o⟩ := clean_resolved v _ (by simp; omega)
  by_cases h : p + (n * v.stride_ + o) ≤ 0
  · have ha := advance_bwd_clamp p (n * v.stride_ + o) 0 (by omega) (by omega) h
    have e1 : p + (n * v.stride_ + o) - 0 = 0 := by omega
    have e2 : (0 : Int) = p + n * v.stride_ + o := by omega
    simp only [adaptor.advance, hn0, hn1, hn2, hc, base_begin, ha, e1, if_true, if_false, ne_eq,
      not_false_eq_true, offset_t_zero, ← e2]
  · have ha := advance_bwd_free p (n * v.stride_ + o) 0 (by omega) (by omega)
    have e2 : p + (n * v.stride_ + o) = p + n * v.stride_ + o := by omega
    simp only [adaptor.advance, hn0, hn1, hn2, hc, base_begin, ha, e2, if_true, if_false, ne_eq,
      not_false_eq_true, offset_t_zero]

theorem jump_unresolved (v : stride_view α) (p n : Int) (hn : n ≠ 0) :
    adaptor.advance v ⟨p, -1⟩ n = adaptor.advance v ⟨p, adaptor.calc_offset v⟩ n := by
  by_cases h : adaptor.calc_offset v = -1
  · rw [h]
  · have hc : adaptor.clean v ⟨p, adaptor.calc_offset v⟩ = ⟨p, adaptor.calc_offset v⟩ :=
      clean_resolved v _ h
    simp only [adaptor.advance, hn, clean_unresolved, hc, ne_eq, not_false_eq_true, if_true]

theorem jump_zero (v : stride_view α) (c : cursor) : adaptor.advance v c 0 = c := by
  simp [adaptor.advance]

/-- The jump against repeated single steps, and the index the jump lands on. -/
theorem jump_steps (v : stride_view α) (hbd : v.bidirectional = true)
    (hS : 0 < v.stride_) (k : Nat) (c : cursor) (hc : at_index v k c) (n : Int)
    (h0 : 0 ≤ (k : Int) + n)
    (h1 : (k : Int) + n ≤ (⌈(v.base.length : ℚ) / (v.stride_ : ℚ)⌉₊ : Int)) :
    (0 < n → next_n v n.toNat c = some (adaptor.advance v c n)) ∧
      (n < 0 → prev_n v (-n).toNat c = some (adaptor.advance v c n)) ∧
      (n = 0 → adaptor.advance v c n = c) ∧
      at_index v ((k : Int) + n).toNat (adaptor.advance v c n) := by
  have hb := ceil_bounds v.base.length v.stride_ hS
  have hL : (0 : Int) ≤ v.base.length := Int.ofNat_nonneg _
  have hco := calc_offset_eq v hS _ hb.1 hb.2
  have hr := calc_offset_range v hS
  have hcast : (((k : Int) + n).toNat : Int) * v.stride_ = (k : Int) * v.stride_ + n * v.stride_ := by
    rw [Int.toNat_of_nonneg h0, Int.add_mul]
  -- the jump for `n > 0`
  have fwd : 0 < n → next_n v n.toNat c = some (adaptor.advance v c n) ∧
      next_n v ((k : Int) + n).toNat (begin_adaptor v) = some (adaptor.advance v c n) := by
    intro hn
    rcases at_index_cases v hbd hS k c hc with ⟨hlt, hce⟩ | ⟨hk, _, _⟩
    · have hstart : next_n v k (begin_adaptor v) = some c := by
        rw [next_n_begin v hS k, hce]; simp only [hlt, if_true]
      have hsplit : ((k : Int) + n).toNat = k + n.toNat := by omega
      have hrun : next_n v ((k : Int) + n).toNat (begin_adaptor v) = next_n v n.toNat c := by
        rw [hsplit, next_n_add, hstart]; rfl
      have hjump : next_n v ((k : Int) + n).toNat (begin_adaptor v) =
          some (adaptor.advance v c n) := by
        rw [next_n_begin v hS, hcast, hce, jump_forward v hS _ n hn (by omega)]
        by_cases h2 : (k : Int) * v.stride_ + n * v.stride_ < v.base.length
        · simp only [h2, if_true]
        · have h3 : (k : Int) * v.stride_ + n * v.stride_ - v.stride_ < v.base.length := by
            have hm := Int.mul_le_mul_of_nonneg_right h1 (le_of_lt hS)
            rw [Int.add_mul] at hm
            omega
          simp only [h2, h3, if_true, if_false]
      exact ⟨hrun ▸ hjump, hjump⟩
    · exfalso
      have : (k : Int) = (⌈(v.base.length : ℚ) / (v.stride_ : ℚ)⌉₊ : Int) := by exact_mod_cast hk
      omega
  -- the jump for `n < 0`
  have bwd : n < 0 → prev_n v (-n).toNat c = some (adaptor.advance v c n) ∧
      adaptor.advance v c n = ⟨(k : Int) * v.stride_ + n * v.stride_, 0⟩ := by
    intro hn
    have hkn : 0 ≤ (k : Int) * v.stride_ + n * v.stride_ := by
      rw [← Int.add_mul]; exact Int.mul_nonneg h0 (le_of_lt hS)
    obtain ⟨j, hj⟩ : ∃ j : Nat, (-n).toNat = j + 1 := ⟨(-n).toNat - 1, by omega⟩
    have hjn : ((j + 1 : Nat) : Int) * v.stride_ = -(n * v.stride_) := by
      rw [← hj, Int.toNat_of_nonneg (by omega), Int.neg_mul]
    rcases at_index_cases v hbd hS k c hc with ⟨hlt, hce⟩ | ⟨hk, hit, hoff⟩
    · rw [hce, jump_backward v hS _ 0 n hn (le_refl _) hS (by omega), hj,
        prev_chain v hS (j + 1) _ (by omega), hjn]
      constructor
      · congr 2; omega
      · congr 1; omega
    · have hkm : (k : Int) = (⌈(v.base.length : ℚ) / (v.stride_ : ℚ)⌉₊ : Int) := by
        exact_mod_cast hk
      rw [← hkm] at hco hb
      have hposL : 0 < v.base.length := by
        rcases Nat.eq_zero_or_pos v.base.length with hz | hz
        · exfalso
          have hz' : (v.base.length : Int) = 0 := by exact_mod_cast hz
          have : (k : Int) = 0 := by
            have := index_unique (v.base.length : Int) v.stride_ (k : Int) 0 hS hb.1 hb.2
              (by omega) (by omega)
            exact this
          omega
        · exact hz
      have hjle : j + 1 ≤ ⌈(v.base.length : ℚ) / (v.stride_ : ℚ)⌉₊ := by
        have : ((j + 1 : Nat) : Int) ≤ (⌈(v.base.length : ℚ) / (v.stride_ : ℚ)⌉₊ : Int) := by
          rw [← hj, Int.toNat_of_nonneg (by omega)]; omega
        exact_mod_cast this
      have hadv : adaptor.advance v c n = ⟨(k : Int) * v.stride_ + n * v.stride_, 0⟩ := by
        have e : adaptor.advance v c n =
            adaptor.advance v ⟨v.base.length, adaptor.calc_offset v⟩ n := by
          obtain ⟨it, off⟩ := c
          simp only at hit hoff
          subst hit
          rcases hoff with h | h
          · subst h; exact jump_unresolved v _ n (by omega)
          · subst h; rfl
        rw [e, jump_backward v hS _ _ n hn hr.1 hr.2 (by omega)]
        congr 1; omega
      rw [hadv, hj, prev_n_from_end v hS hposL c (by rw [hit]; rfl) hoff j hjle, hjn, ← hkm]
      exact ⟨by congr 2; omega, rfl⟩
  refine ⟨fun hn => (fwd hn).1, fun hn => (bwd hn).1, fun hn => by rw [hn]; exact jump_zero v c,
    ?_⟩
  rcases lt_trichotomy n 0 with hn | hn | hn
  · left
    rw [(bwd hn).2, next_n_begin v hS, hcast]
    have hlt : (k : Int) * v.stride_ + n * v.stride_ < v.base.length := by
      rw [← Int.add_mul]
      exact mul_lt_of_lt_index _ _ _ _ hS hb.1 (by
        rcases at_index_cases v hbd hS k c hc with ⟨hlt, _⟩ | ⟨hk, _, _⟩
        · have := lt_index_of_mul_lt _ _ _ _ hS hb.2 hlt
          omega
        · have : (k : Int) = (⌈(v.base.length : ℚ) / (v.stride_ : ℚ)⌉₊ : Int) := by
            exact_mod_cast hk
          omega)
    simp only [hlt, if_true]
  · subst hn
    rw [jump_zero]
    simpa using hc
  · left
    exact (fwd hn).2

/-- C7: for every random-access base, stride `S > 0`, cursor at index `k` and integer `n`
with `0 ≤ k + n ≤ ceil(L / S)`, `adaptor::advance` (jump) leaves the cursor in the same
(position, offset) state as `n` successive `next` calls when `n > 0`, as `-n`
successive `prev` calls when `n < 0`, and leaves position and offset (even an
unresolved offset) untouched when `n = 0`; the cursor it leaves sits at index `k + n`. -/
theorem jump_matches_repeated_steps (v : stride_view α) (hbd : v.bidirectional = true)
    (hS : 0 < v.stride_) (k : Nat) (c : cursor) (hc : at_index v k c) (n : Int)
    (h0 : 0 ≤ (k : Int) + n)
    (h1 : (k : Int) + n ≤ (⌈(v.base.length : ℚ) / (v.stride_ : ℚ)⌉₊ : Int)) :
    (0 < n → next_n v n.toNat c = some (adaptor.advance v c n)) ∧
      (n < 0 → prev_n v (-n).toNat c = some (adaptor.advance v c n)) ∧
      (n = 0 → adaptor.advance v c n = c) ∧
      at_index v ((k : Int) + n).toNat (adaptor.advance v c n) :=
  jump_steps v hbd hS k c hc n h0 h1

theorem jump_matches_repeated_steps_witness :
    next_n (⟨[10, 11, 12, 13, 14, 15, 16], 3, true, false⟩ : stride_view Nat) 2 ⟨3, 0⟩ =
        some (adaptor.advance (⟨[10, 11, 12, 13, 14, 15, 16], 3, true, false⟩ : stride_view Nat)
          ⟨3, 0⟩ 2) ∧
      prev_n (⟨[10, 11, 12, 13, 14, 15, 16], 3, true, false⟩ : stride_view Nat) 3 ⟨7, -1⟩ =
        some (adaptor.advance (⟨[10, 11, 12, 13, 14, 15, 16], 3, true, false⟩ : stride_view Nat)
          ⟨7, -1⟩ (-3)) := by
  have h1 := (jump_matches_repeated_steps
      (⟨[10, 11, 12, 13, 14, 15, 16], 3, true, false⟩ : stride_view Nat) rfl (by decide)
      1 ⟨3, 0⟩ (by decide) 2 (by decide) (by rw [count_example]; decide)).1 (by decide)
  have h2 := (jump_matches_repeated_steps
      (⟨[10, 11, 12, 13, 14, 15, 16], 3, true, false⟩ : stride_view Nat) rfl (by decide)
      3 ⟨7, -1⟩ (by decide) (-3) (by decide) (by rw [count_example]; decide)).2.1 (by decide)
  have e1 : (2 : Int).toNat = 2 := by decide
  have e2 : (-(-3 : Int)).toNat = 3 := by decide
  rw [e1] at h1
  rw [e2] at h2
  exact ⟨h1, h2⟩

/-! ## Reachable cursors -/

theorem count_le_length (v : stride_view α) (hS : 0 < v.stride_) :
    ⌈(v.base.length : ℚ) / (v.stride_ : ℚ)⌉₊ ≤ v.base.length := by
  have hb := (ceil_bounds v.base.length v.stride_ hS).1
  by_contra h
  have h1 : (v.base.length : Int) + 1 ≤ (⌈(v.base.length : ℚ) / (v.stride_ : ℚ)⌉₊ : Int) := by
    have : v.base.length + 1 ≤ ⌈(v.base.length : ℚ) / (v.stride_ : ℚ)⌉₊ := by omega
    exact_mod_cast this
  have h2 := Int.mul_le_mul_of_nonneg_right h1 (le_of_lt hS)
  have h3 : (v.base.length : Int) * 1 ≤ (v.base.length : Int) * v.stride_ :=
    Int.mul_le_mul_of_nonneg_left (by omega) (Int.ofNat_nonneg _)
  rw [Int.add_mul] at h2
  omega

theorem end_index_eq (v : stride_view α) (hS : 0 < v.stride_) :
    end_index v = ⌈(v.base.length : ℚ) / (v.stride_ : ℚ)⌉₊ := by
  obtain ⟨xs, ce, h1, _, _, _⟩ :=
    traverse_from v hS ⌈(v.base.length : ℚ) / (v.stride_ : ℚ)⌉₊ 0 (v.base.length + 1)
      (begin_adaptor v) (by omega) (by have := count_le_length v hS; omega) rfl
  simp [end_index, h1]

theorem end_adaptor_at_index (v : stride_view α) (hS : 0 < v.stride_) :
    at_index v ⌈(v.base.length : ℚ) / (v.stride_ : ℚ)⌉₊ (end_adaptor v) := by
  right
  rw [next_n_count v hS]
  exact ⟨rfl, Or.inl rfl⟩

/-- A cursor at index `k` that is not at the base end is the inner cursor
`(k * S, 0)`, whatever the capabilities of the base. -/
theorem at_index_inner (v : stride_view α) (hS : 0 < v.stride_) (k : Nat) (c : cursor)
    (h : at_index v k c) (hne : c.it ≠ base_end v) :
    (k : Int) * v.stride_ < v.base.length ∧ c = ⟨(k : Int) * v.stride_, 0⟩ ∧
      next_n v k (begin_adaptor v) = some c := by
  unfold at_index at h
  rcases h with h | ⟨_, h | h⟩
  · have h' := h
    rw [next_n_begin v hS k] at h'
    by_cases h1 : (k : Int) * v.stride_ < v.base.length
    · simp only [h1, if_true, Option.some.injEq] at h'
      exact ⟨h1, h'.symm, h⟩
    · by_cases h2 : (k : Int) * v.stride_ - v.stride_ < v.base.length
      · simp only [h1, h2, if_true, if_false, Option.some.injEq] at h'
        exfalso; apply hne; rw [← h']; rfl
      · simp [h1, h2] at h'
  · exfalso; apply hne; rw [h]; rfl
  · exfalso; apply hne; rw [h]

theorem next_n_isSome_le (v : stride_view α) (hS : 0 < v.stride_) (t : Nat)
    (h : (next_n v t (begin_adaptor v)).isSome = true) :
    (t : Int) ≤ (⌈(v.base.length : ℚ) / (v.stride_ : ℚ)⌉₊ : Int) := by
  have hb := ceil_bounds v.base.length v.stride_ hS
  rw [next_n_begin v hS t] at h
  have h2 : (t : Int) * v.stride_ - v.stride_ < v.base.length := by
    by_cases h1 : (t : Int) * v.stride_ < v.base.length
    · omega
    · by_contra h2
      simp [h1, h2] at h
  have h3 : ((t : Int) - 1) * v.stride_ < v.base.length := by rw [Int.sub_mul]; omega
  have := lt_index_of_mul_lt _ _ _ _ hS hb.2 h3
  omega

/-- Every in-bounds operation on a cursor at index `k` passes its assertions and leaves
a cursor at the index the operation moves to. -/
theorem apply_op_at_index (v : stride_view α) (hS : 0 < v.stride_) (k : Nat) (c : cursor)
    (h : at_index v k c) (o : op) :
    apply_op v k c o ≠ outcome.fatal ∧
      ∀ k1 c1, apply_op v k c o = outcome.at k1 c1 → at_index v k1 c1 := by
  have hb := ceil_bounds v.base.length v.stride_ hS
  cases o with
  | step_forward =>
    by_cases he : c.it = base_end v
    · simp [apply_op, he]
    · obtain ⟨hlt, hc, hn⟩ := at_index_inner v hS k c h he
      have hsome : ∃ c1, adaptor.next v c = some c1 := by
        rw [hc]
        by_cases h2 : (k : Int) * v.stride_ + v.stride_ < v.base.length
        · exact ⟨_, next_inner v hS _ h2⟩
        · exact ⟨_, next_last v hS _ hlt (by omega)⟩
      obtain ⟨c1, hc1⟩ := hsome
      simp only [apply_op, he, if_false, hc1]
      refine ⟨by simp, ?_⟩
      intro k1 c2 heq
      simp only [outcome.at.injEq] at heq
      obtain ⟨rfl, rfl⟩ := heq
      left
      rw [next_n_snoc, hn]
      exact hc1
  | step_backward =>
    by_cases hm : v.bidirectional = false ∨ c.it = base_begin v
    · simp [apply_op, hm]
    · have hbd : v.bidirectional = true := by
        cases hq : v.bidirectional
        · exact absurd (Or.inl hq) hm
        · rfl
      have hnb : c.it ≠ 0 := fun h0 => hm (Or.inr h0)
      have hprev : ∃ j : Nat, j + 1 = k ∧ (j : Int) * v.stride_ < v.base.length ∧
          adaptor.prev v c = some ⟨(j : Int) * v.stride_, 0⟩ := by
        rcases at_index_cases v hbd hS k c h with ⟨hlt, hc⟩ | ⟨hk, hit, hoff⟩
        · subst hc
          obtain ⟨j, rfl⟩ : ∃ j, k = j + 1 := by
            rcases Nat.eq_zero_or_pos k with h0 | h0
            · subst h0; simp at hnb
            · exact ⟨k - 1, by omega⟩
          rw [succ_mul_cast] at hlt hnb ⊢
          have hj0 : (0 : Int) ≤ (j : Int) * v.stride_ :=
            Int.mul_nonneg (Int.ofNat_nonneg _) (le_of_lt hS)
          refine ⟨j, rfl, by omega, ?_⟩
          rw [prev_resolved v _ 0 (le_refl _) hS (by omega)]
          congr 2; omega
        · have hL : 0 < v.base.length := by
            rcases Nat.eq_zero_or_pos v.base.length with h0 | h0
            · exfalso; apply hnb; rw [hit, h0]; rfl
            · exact h0
          have hpos := count_pos v hS hL
          obtain ⟨j, hj⟩ : ∃ j, ⌈(v.base.length : ℚ) / (v.stride_ : ℚ)⌉₊ = j + 1 :=
            ⟨⌈(v.base.length : ℚ) / (v.stride_ : ℚ)⌉₊ - 1, by omega⟩
          have hp := prev_from_end v hS hL c (by rw [hit]; rfl) hoff
          rw [hj, succ_mul_cast] at hp hb
          refine ⟨j, by omega, by omega, ?_⟩
          rw [hp]; congr 2; omega
      obtain ⟨j, hjk, hjlt, hp⟩ := hprev
      simp only [apply_op, hm, if_false, hp]
      refine ⟨by simp, ?_⟩
      intro k1 c2 heq
      simp only [outcome.at.injEq] at heq
      obtain ⟨rfl, rfl⟩ := heq
      left
      rw [show k - 1 = j by omega, next_n_begin v hS j]
      simp only [hjlt, if_true]
  | jump n =>
    by_cases hm : v.bidirectional = true ∧ 0 ≤ (k : Int) + n ∧
        (next_n v ((k : Int) + n).toNat (begin_adaptor v)).isSome = true
    · simp only [apply_op, hm, and_self, if_true]
      refine ⟨by simp, ?_⟩
      intro k1 c2 heq
      simp only [outcome.at.injEq] at heq
      obtain ⟨rfl, rfl⟩ := heq
      have hle := next_n_isSome_le v hS _ hm.2.2
      rw [Int.toNat_of_nonneg hm.2.1] at hle
      exact (jump_steps v hm.1 hS k c h n hm.2.1 hle).2.2.2
    · simp [apply_op, hm]
  | clean =>
    by_cases hbd : v.bidirectional = true
    · simp only [apply_op, hbd, if_true]
      refine ⟨by simp, ?_⟩
      intro k1 c2 heq
      simp only [outcome.at.injEq] at heq
      obtain ⟨rfl, rfl⟩ := heq
      rcases at_index_cases v hbd hS k c h with ⟨_, hc⟩ | ⟨hk, hit, hoff⟩
      · rw [clean_resolved v c (by rw [hc]; simp)]
        exact h
      · rw [clean_at_end v c hoff, hk, hit]
        exact end_at_index v hbd hS _ rfl (Or.inr rfl)
    · simp [apply_op, hbd]

theorem run_at_index (v : stride_view α) (hS : 0 < v.stride_) (ops : List op) :
    ∀ (k : Nat) (c : cursor), at_index v k c →
      run v ops k c ≠ outcome.fatal ∧
        ∀ k1 c1, run v ops k c = outcome.at k1 c1 → at_index v k1 c1 := by
  induction ops with
  | nil =>
    intro k c h
    refine ⟨by simp [run], ?_⟩
    intro k1 c1 heq
    simp only [run, outcome.at.injEq] at heq
    obtain ⟨rfl, rfl⟩ := heq
    exact h
  | cons o os ih =>
    intro k c h
    obtain ⟨hnf, hstep⟩ := apply_op_at_index v hS k c h o
    cases hr : apply_op v k c o with
    | misuse => simp [run, hr]
    | fatal => exact absurd hr hnf
    | «at» k2 c2 =>
      simp only [run, hr]
      exact ih k2 c2 (hstep k2 c2 hr)

theorem run_append (v : stride_view α) (ops : List op) (o : op) :
    ∀ (k : Nat) (c : cursor),
      run v (ops ++ [o]) k c =
        match run v ops k c with
        | outcome.at k1 c1 => apply_op v k1 c1 o
        | outcome.misuse => outcome.misuse
        | outcome.fatal => outcome.fatal := by
  induction ops with
  | nil =>
    intro k c
    simp only [List.nil_append, run]
    cases apply_op v k c o <;> rfl
  | cons o1 os ih =>
    intro k c
    simp only [List.cons_append, run]
    cases apply_op v k c o1 with
    | misuse => rfl
    | fatal => rfl
    | «at» k2 c2 => exact ih k2 c2

theorem reachable_at_index (v : stride_view α) (hS : 0 < v.stride_) (k : Nat) (c : cursor)
    (h : reachable v k c) : at_index v k c := by
  obtain ⟨ops, h | h⟩ := h
  · exact (run_at_index v hS ops 0 _ (begin_at_index v)).2 k c h
  · rw [end_index_eq v hS] at h
    exact (run_at_index v hS ops _ _ (end_adaptor_at_index v hS)).2 k c h

/-- An in-bounds operation on a reachable cursor leads to a reachable cursor. -/
theorem reachable_step (v : stride_view α) (k : Nat) (c : cursor) (h : reachable v k c)
    (o : op) (k1 : Nat) (c1 : cursor) (hop : apply_op v k c o = outcome.at k1 c1) :
    reachable v k1 c1 := by
  obtain ⟨ops, h | h⟩ := h
  · exact ⟨ops ++ [o], Or.inl (by rw [run_append, h]; exact hop)⟩
  · exact ⟨ops ++ [o], Or.inr (by rw [run_append, h]; exact hop)⟩

theorem reachable_begin (v : stride_view α) : reachable v 0 (begin_adaptor v) :=
  ⟨[], Or.inl rfl⟩

theorem reachable_end (v : stride_view α) : reachable v (end_index v) (end_adaptor v) :=
  ⟨[], Or.inr rfl⟩

theorem advance_shortfall_nonneg (it n bound : Int) (hn : 0 ≤ n) :
    0 ≤ (ranges.advance it n bound).2 := by
  unfold ranges.advance
  simp only [hn, if_true]
  split
  · simp only; omega
  · simp

theorem next_offset (v : stride_view α) (c c1 : cursor) (h : adaptor.next v c = some c1) :
    ∃ x : Int, c1.offset = offset_t v x ∧ (0 ≤ v.stride_ → 0 ≤ x) := by
  unfold adaptor.next at h
  by_cases h0 : 0 = c.offset
  · by_cases h1 : c.it ≠ base_end v
    · rw [if_pos h0, if_pos h1] at h
      simp only [Option.some.injEq] at h
      refine ⟨(ranges.advance c.it (v.stride_ + c.offset) (base_end v)).2, by rw [← h], ?_⟩
      intro hS
      exact advance_shortfall_nonneg _ _ _ (by omega)
    · simp [h0, h1] at h
  · simp [h0] at h

/-- On a base that is not bidirectional every reachable cursor reads offset 0. -/
theorem reachable_forward_only (v : stride_view α) (hnb : v.bidirectional = false)
    (k : Nat) (c : cursor) (h : reachable v k c) : c.offset = 0 := by
  have hoff : ∀ x : Int, offset_t v x = 0 := by intro x; simp [offset_t, hnb]
  have hstep : ∀ (o : op) (k c k1 c1), apply_op v k c o = outcome.at k1 c1 → c1.offset = 0 := by
    intro o k c k1 c1 hop
    cases o with
    | step_forward =>
      simp only [apply_op] at hop
      split at hop
      · cases hop
      · cases hx : adaptor.next v c with
        | none => rw [hx] at hop; cases hop
        | some c2 =>
          rw [hx] at hop
          simp only [outcome.at.injEq] at hop
          obtain ⟨_, rfl⟩ := hop
          obtain ⟨x, hx2, _⟩ := next_offset v c c2 hx
          rw [hx2]; exact hoff x
    | step_backward => simp [apply_op, hnb] at hop
    | jump n => simp [apply_op, hnb] at hop
    | clean => simp [apply_op, hnb] at hop
  have hrun : ∀ (ops : List op) (k0 : Nat) (c0 : cursor), c0.offset = 0 →
      ∀ k1 c1, run v ops k0 c0 = outcome.at k1 c1 → c1.offset = 0 := by
    intro ops
    induction ops with
    | nil =>
      intro k0 c0 h0 k1 c1 heq
      simp only [run, outcome.at.injEq] at heq
      obtain ⟨_, rfl⟩ := heq
      exact h0
    | cons o os ih =>
      intro k0 c0 _ k1 c1 heq
      simp only [run] at heq
      cases hr : apply_op v k0 c0 o with
      | misuse => rw [hr] at heq; cases heq
      | fatal => rw [hr] at heq; cases heq
      | «at» k2 c2 =>
        rw [hr] at heq
        exact ih k2 c2 (hstep o k0 c0 k2 c2 hr) k1 c1 heq
  obtain ⟨ops, h | h⟩ := h
  · exact hrun ops 0 _ (by simp [begin_adaptor, hoff]) k c h
  · exact hrun ops _ _ (by simp [end_adaptor, hoff, hnb]) k c h

/-! ## Construction, assertions, offset resolution -/

/-- C11: constructing a stride view with `(base, stride)` fails with a fatal contract
violation if and only if `stride ≤ 0`; for every `stride > 0` construction succeeds
and the stored stride equals the argument (and the stored base is the base given). -/
theorem construct_asserts_iff_nonpositive (rng : List α) (stride : Int) (b s : Bool) :
    (construct rng stride b s = none ↔ stride ≤ 0) ∧
      (0 < stride →
        ∃ v, construct rng stride b s = some v ∧ v.stride_ = stride ∧ v.base = rng) := by
  by_cases h : 0 < stride
  · have e : construct rng stride b s = some ⟨rng, stride, b, s⟩ := if_pos h
    rw [e]
    exact ⟨⟨fun h' => Option.noConfusion h', fun h' => absurd h (by omega)⟩,
      fun _ => ⟨_, rfl, rfl, rfl⟩⟩
  · have e : construct rng stride b s = none := if_neg h
    rw [e]
    exact ⟨⟨fun _ => by omega, fun _ => rfl⟩, fun h' => absurd h' h⟩

theorem prev_offset (v : stride_view α) (c c1 : cursor) (h : adaptor.prev v c = some c1) :
    0 = c1.offset := by
  unfold adaptor.prev at h
  simp only at h
  split at h
  · rename_i h0
    simp only [Option.some.injEq] at h
    rw [← h]; exact h0
  · cases h

theorem distance_to_assertion (v : stride_view α) (a b : cursor) (r : Int × cursor × cursor)
    (h : adaptor.distance_to v a b = some r) :
    0 = Int.tmod (((adaptor.clean v b).it - (adaptor.clean v a).it) +
      (adaptor.clean v b).offset - (adaptor.clean v a).offset) v.stride_ := by
  unfold adaptor.distance_to at h
  simp only at h
  split at h
  · rename_i h0; exact h0
  · cases h

/-- C12: correct usage never triggers a contract assertion.  For every base and stride
`S > 0`, no sequence of in-bounds operations from the begin or the end cursor ends in a
failed assertion; on every reachable cursor that is not at the base end the assertion
`0 == offset` at entry of `next` holds and `next` returns; on a bidirectional base
every reachable cursor that is not at the base begin passes the assertion
`0 == offset` after `prev`; and for any two reachable cursors of the view the
assertion `raw mod stride == 0` of `distance_to` holds. -/
theorem correct_usage_never_asserts (v : stride_view α) (hS : 0 < v.stride_) :
    (∀ ops : List op, run v ops 0 (begin_adaptor v) ≠ outcome.fatal ∧
        run v ops (end_index v) (end_adaptor v) ≠ outcome.fatal) ∧
    (∀ k c, reachable v k c → c.it ≠ base_end v →
        0 = c.offset ∧ ∃ c1, adaptor.next v c = some c1) ∧
    (∀ k c, reachable v k c → v.bidirectional = true → c.it ≠ base_begin v →
        ∃ c1, adaptor.prev v c = some c1 ∧ 0 = c1.offset) ∧
    (∀ i a j b, reachable v i a → reachable v j b → v.bidirectional = true →
        (∃ r, adaptor.distance_to v a b = some r) ∧
        0 = Int.tmod (((adaptor.clean v b).it - (adaptor.clean v a).it) +
          (adaptor.clean v b).offset - (adaptor.clean v a).offset) v.stride_) := by
  refine ⟨?_, ?_, ?_, ?_⟩
  · intro ops
    refine ⟨(run_at_index v hS ops 0 _ (begin_at_index v)).1, ?_⟩
    rw [end_index_eq v hS]
    exact (run_at_index v hS ops _ _ (end_adaptor_at_index v hS)).1
  · intro k c hr hne
    have hat := reachable_at_index v hS k c hr
    obtain ⟨_, hc, _⟩ := at_index_inner v hS k c hat hne
    refine ⟨by rw [hc], ?_⟩
    have hnf := (apply_op_at_index v hS k c hat op.step_forward).1
    cases hx : adaptor.next v c with
    | none => exfalso; apply hnf; simp [apply_op, hne, hx]
    | some c1 => exact ⟨c1, rfl⟩
  · intro k c hr hbd hne
    have hat := reachable_at_index v hS k c hr
    have hnf := (apply_op_at_index v hS k c hat op.step_backward).1
    cases hx : adaptor.prev v c with
    | none => exfalso; apply hnf; simp [apply_op, hne, hbd, hx]
    | some c1 => exact ⟨c1, rfl, prev_offset v c c1 hx⟩
  · intro i a j b ha hb hbd
    have h := distance_to_at_index v hbd hS i j a b (reachable_at_index v hS i a ha)
      (reachable_at_index v hS j b hb)
    exact ⟨⟨_, h⟩, distance_to_assertion v a b _ h⟩

theorem correct_usage_never_asserts_witness :
    run (⟨[10, 11, 12, 13, 14, 15, 16], 3, true, false⟩ : stride_view Nat)
        [op.step_forward, op.jump 2, op.step_backward, op.clean] 0
        (begin_adaptor (⟨[10, 11, 12, 13, 14, 15, 16], 3, true, false⟩ : stride_view Nat)) ≠
        outcome.fatal ∧
      run (⟨[10, 11, 12, 13, 14, 15, 16], 3, true, false⟩ : stride_view Nat)
        [op.step_forward, op.jump 2, op.step_backward, op.clean]
        (end_index (⟨[10, 11, 12, 13, 14, 15, 16], 3, true, false⟩ : stride_view Nat))
        (end_adaptor (⟨[10, 11, 12, 13, 14, 15, 16], 3, true, false⟩ : stride_view Nat)) ≠
        outcome.fatal :=
  (correct_usage_never_asserts
    (⟨[10, 11, 12, 13, 14, 15, 16], 3, true, false⟩ : stride_view Nat) (by decide)).1
    [op.step_forward, op.jump 2, op.step_backward, op.clean]

/-- C13: for every base length `L` and stride `S > 0`, the offset `calc_offset`
computes (remainder `L mod S`, then `0` when the remainder is `0` and `S - remainder`
otherwise) is the unique `r` with `0 ≤ r < S` and `(L + r) mod S = 0`; in particular
it is never the unresolved sentinel `-1`, it is 2 for `L = 7`, `S = 3` and 0 for
`L = 6`, `S = 3`. -/
theorem calc_offset_unique_complement (v : stride_view α) (hS : 0 < v.stride_) :
    (0 ≤ adaptor.calc_offset v ∧ adaptor.calc_offset v < v.stride_ ∧
      ((v.base.length : Int) + adaptor.calc_offset v) % v.stride_ = 0) ∧
    (∀ r : Int, 0 ≤ r → r < v.stride_ → ((v.base.length : Int) + r) % v.stride_ = 0 →
      r = adaptor.calc_offset v) ∧
    adaptor.calc_offset v ≠ -1 ∧
    (v.base.length = 7 → v.stride_ = 3 → adaptor.calc_offset v = 2) ∧
    (v.base.length = 6 → v.stride_ = 3 → adaptor.calc_offset v = 0) := by
  have hb := ceil_bounds v.base.length v.stride_ hS
  have hco := calc_offset_eq v hS _ hb.1 hb.2
  have hr := calc_offset_range v hS
  have hmod : ((v.base.length : Int) + adaptor.calc_offset v) % v.stride_ = 0 := by
    rw [hco]
    have : (v.base.length : Int) +
        ((⌈(v.base.length : ℚ) / (v.stride_ : ℚ)⌉₊ : Int) * v.stride_ - v.base.length) =
        (⌈(v.base.length : ℚ) / (v.stride_ : ℚ)⌉₊ : Int) * v.stride_ := by omega
    rw [this]
    exact Int.mul_emod_left _ _
  refine ⟨⟨hr.1, hr.2, hmod⟩, ?_, by omega, ?_, ?_⟩
  · intro r hr0 hr1 hrm
    have h1 : v.stride_ ∣ (v.base.length : Int) + r := Int.dvd_of_emod_eq_zero hrm
    have h2 : v.stride_ ∣ (v.base.length : Int) + adaptor.calc_offset v :=
      Int.dvd_of_emod_eq_zero hmod
    have h3 : v.stride_ ∣ r - adaptor.calc_offset v := by
      have := Int.dvd_sub h1 h2
      have e : (v.base.length : Int) + r - ((v.base.length : Int) + adaptor.calc_offset v) =
          r - adaptor.calc_offset v := by omega
      rwa [e] at this
    have h4 : r - adaptor.calc_offset v = 0 :=
      Int.eq_zero_of_abs_lt_dvd h3 (by rw [abs_lt]; constructor <;> omega)
    omega
  · intro h7 h3
    simp only [adaptor.calc_offset, h7, h3]
    decide
  · intro h6 h3
    simp only [adaptor.calc_offset, h6, h3]
    decide

theorem calc_offset_unique_complement_witness :
    adaptor.calc_offset (⟨[10, 11, 12, 13, 14, 15, 16], 3, true, false⟩ : stride_view Nat) = 2 ∧
      adaptor.calc_offset (⟨[10, 11, 12, 13, 14, 15], 3, true, false⟩ : stride_view Nat) = 0 :=
  ⟨(calc_offset_unique_complement
      (⟨[10, 11, 12, 13, 14, 15, 16], 3, true, false⟩ : stride_view Nat) (by decide)).2.2.2.1
      rfl rfl,
    (calc_offset_unique_complement
      (⟨[10, 11, 12, 13, 14, 15], 3, true, false⟩ : stride_view Nat) (by decide)).2.2.2.2
      rfl rfl⟩

/-- C14: offset resolution (`adaptor::clean`) is idempotent and never changes a
resolved value: for every cursor, if the offset is unresolved (`-1`) `clean` sets it to
`calc_offset()`, if it is already resolved `clean` leaves the cursor unchanged, and
`clean` applied twice gives the same cursor as `clean` applied once; `clean` never
changes the underlying position. -/
theorem clean_idempotent (v : stride_view α) (c : cursor) :
    (c.offset = -1 → adaptor.clean v c = ⟨c.it, adaptor.calc_offset v⟩) ∧
      (c.offset ≠ -1 → adaptor.clean v c = c) ∧
      adaptor.clean v (adaptor.clean v c) = adaptor.clean v c ∧
      (adaptor.clean v c).it = c.it := by
  refine ⟨?_, fun h => clean_resolved v c h, ?_, ?_⟩
  · intro h
    simp [adaptor.clean, h]
  · by_cases h : c.offset = -1
    · by_cases h2 : adaptor.calc_offset v = -1
      · simp [adaptor.clean, h, h2]
      · simp [adaptor.clean, h, h2]
    · rw [clean_resolved v c h, clean_resolved v c h]
  · by_cases h : c.offset = -1
    · simp [adaptor.clean, h]
    · rw [clean_resolved v c h]

/-! ## The reachable-state invariant -/

theorem calc_offset_mod (v : stride_view α) (hS : 0 < v.stride_) :
    ((v.base.length : Int) + adaptor.calc_offset v) % v.stride_ = 0 := by
  have hb := ceil_bounds v.base.length v.stride_ hS
  rw [calc_offset_eq v hS _ hb.1 hb.2]
  have : (v.base.length : Int) +
      ((⌈(v.base.length : ℚ) / (v.stride_ : ℚ)⌉₊ : Int) * v.stride_ - v.base.length) =
      (⌈(v.base.length : ℚ) / (v.stride_ : ℚ)⌉₊ : Int) * v.stride_ := by omega
  rw [this]
  exact Int.mul_emod_left _ _

theorem prev_n_last (v : stride_view α) (j : Nat) :
    ∀ c c1 : cursor, prev_n v (j + 1) c = some c1 → 0 = c1.offset := by
  induction j with
  | zero =>
    intro c c1 h
    rw [prev_n] at h
    cases hx : adaptor.prev v c with
    | none => rw [hx] at h; cases h
    | some c2 =>
      rw [hx] at h
      simp only [Option.some_bind, prev_n, Option.some.injEq] at h
      rw [← h]
      exact prev_offset v c c2 hx
  | succ j ih =>
    intro c c1 h
    rw [prev_n] at h
    cases hx : adaptor.prev v c with
    | none => rw [hx] at h; cases h
    | some c2 =>
      rw [hx] at h
      exact ih c2 c1 h

theorem next_n_last (v : stride_view α) (hS : 0 < v.stride_) (j : Nat) (c c1 : cursor)
    (h : next_n v (j + 1) c = some c1) : ∃ x : Int, c1.offset = offset_t v x ∧ 0 ≤ x := by
  rw [next_n_snoc] at h
  cases hx : next_n v j c with
  | none => rw [hx] at h; cases h
  | some c2 =>
    rw [hx] at h
    obtain ⟨x, h1, h2⟩ := next_offset v c2 c1 h
    exact ⟨x, h1, h2 (le_of_lt hS)⟩

/-- No in-bounds operation on a cursor at an index turns a resolved offset into `-1`. -/
theorem apply_op_keeps_resolved (v : stride_view α) (hS : 0 < v.stride_)
    (hbd : v.bidirectional = true) (k : Nat) (c : cursor) (hat : at_index v k c)
    (hc : c.offset ≠ -1) (o : op) (k1 : Nat) (c1 : cursor)
    (hop : apply_op v k c o = outcome.at k1 c1) : c1.offset ≠ -1 := by
  cases o with
  | step_forward =>
    simp only [apply_op] at hop
    split at hop
    · cases hop
    · cases hx : adaptor.next v c with
      | none => rw [hx] at hop; cases hop
      | some c2 =>
        rw [hx] at hop
        simp only [outcome.at.injEq] at hop
        obtain ⟨_, rfl⟩ := hop
        obtain ⟨x, h1, h2⟩ := next_offset v c c2 hx
        rw [h1, offset_t_bidir v hbd]
        have := h2 (le_of_lt hS)
        omega
  | step_backward =>
    simp only [apply_op] at hop
    split at hop
    · cases hop
    · cases hx : adaptor.prev v c with
      | none => rw [hx] at hop; cases hop
      | some c2 =>
        rw [hx] at hop
        simp only [outcome.at.injEq] at hop
        obtain ⟨_, rfl⟩ := hop
        have := prev_offset v c c2 hx
        omega
  | jump n =>
    by_cases hm : v.bidirectional = true ∧ 0 ≤ (k : Int) + n ∧
        (next_n v ((k : Int) + n).toNat (begin_adaptor v)).isSome = true
    · simp only [apply_op, hm, and_self, if_true, outcome.at.injEq] at hop
      obtain ⟨_, rfl⟩ := hop
      have hle := next_n_isSome_le v hS _ hm.2.2
      rw [Int.toNat_of_nonneg hm.2.1] at hle
      obtain ⟨hf, hbk, hz, _⟩ := jump_steps v hbd hS k c hat n hm.2.1 hle
      rcases lt_trichotomy n 0 with hn | hn | hn
      · obtain ⟨j, hj⟩ : ∃ j : Nat, (-n).toNat = j + 1 := ⟨(-n).toNat - 1, by omega⟩
        have h := hbk hn
        rw [hj] at h
        have := prev_n_last v j c _ h
        omega
      · rw [hz hn]; exact hc
      · obtain ⟨j, hj⟩ : ∃ j : Nat, n.toNat = j + 1 := ⟨n.toNat - 1, by omega⟩
        have h := hf hn
        rw [hj] at h
        obtain ⟨x, h1, h2⟩ := next_n_last v hS j c _ h
        rw [h1, offset_t_bidir v hbd]
        omega
    · simp [apply_op, hm] at hop
  | clean =>
    simp only [apply_op, hbd, if_true, outcome.at.injEq] at hop
    obtain ⟨_, rfl⟩ := hop
    rw [clean_resolved v c hc]
    exact hc

/-- C16 (amended): reachable-state invariant of the stride cursor.  For every
backward-capable base of length `L` and stride `S > 0`, every cursor state
`(pos, offset)` reachable from the begin or the end cursor by in-bounds `next`, `prev`,
`advance` and `clean` either is the end cursor with unresolved offset (`pos = L`,
`offset = -1`) or satisfies `0 ≤ pos ≤ L`, `0 ≤ offset < S`, `(pos + offset) mod S = 0`
and `offset ≠ 0` only if `pos = L`.  For a base that is not backward-capable the
offset of every reachable cursor reads `0`, with `0 ≤ pos ≤ L` and `pos mod S = 0` or
`pos = L`.  In both cases no operation turns a resolved offset back into `-1`. -/
theorem reachable_cursor_invariant (v : stride_view α) (hS : 0 < v.stride_) (k : Nat)
    (c : cursor) (hr : reachable v k c) :
    (v.bidirectional = true →
      (c = ⟨base_end v, -1⟩ ∨
        (0 ≤ c.it ∧ c.it ≤ base_end v ∧ 0 ≤ c.offset ∧ c.offset < v.stride_ ∧
          (c.it + c.offset) % v.stride_ = 0 ∧ (c.offset ≠ 0 → c.it = base_end v)))) ∧
    (v.bidirectional = false →
      c.offset = 0 ∧ 0 ≤ c.it ∧ c.it ≤ base_end v ∧
        (c.it % v.stride_ = 0 ∨ c.it = base_end v)) ∧
    (∀ (o : op) (k1 : Nat) (c1 : cursor), c.offset ≠ -1 →
      apply_op v k c o = outcome.at k1 c1 → c1.offset ≠ -1) := by
  have hat := reachable_at_index v hS k c hr
  have hL : (0 : Int) ≤ v.base.length := Int.ofNat_nonneg _
  have hk0 : (0 : Int) ≤ (k : Int) * v.stride_ :=
    Int.mul_nonneg (Int.ofNat_nonneg _) (le_of_lt hS)
  refine ⟨?_, ?_, ?_⟩
  · intro hbd
    rcases at_index_cases v hbd hS k c hat with ⟨hlt, hc⟩ | ⟨_, hit, hoff⟩
    · right
      subst hc
      simp only [base_end]
      refine ⟨hk0, by omega, le_refl _, hS, ?_, fun h => absurd rfl h⟩
      rw [Int.add_zero]; exact Int.mul_emod_left _ _
    · have hrg := calc_offset_range v hS
      rcases hoff with h | h
      · left
        obtain ⟨it, off⟩ := c
        simp only at hit h
        rw [hit, h]; rfl
      · right
        simp only [base_end]
        rw [hit, h]
        exact ⟨hL, le_refl _, hrg.1, hrg.2, calc_offset_mod v hS, fun _ => rfl⟩
  · intro hnb
    refine ⟨reachable_forward_only v hnb k c hr, ?_⟩
    by_cases he : c.it = base_end v
    · rw [he]
      exact ⟨hL, le_refl _, Or.inr rfl⟩
    · obtain ⟨hlt, hc, _⟩ := at_index_inner v hS k c hat he
      subst hc
      simp only [base_end]
      exact ⟨hk0, by omega, Or.inl (Int.mul_emod_left _ _)⟩
  · intro o k1 c1 hc hop
    cases hq : v.bidirectional with
    | true => exact apply_op_keeps_resolved v hS hq k c hat hc o k1 c1 hop
    | false =>
      have := reachable_forward_only v hq k1 c1 (reachable_step v k c hr o k1 c1 hop)
      omega

theorem reachable_cursor_invariant_witness :
    ((⟨7, 2⟩ : cursor) = ⟨base_end (⟨[10, 11, 12, 13, 14, 15, 16], 3, true, false⟩ : stride_view Nat), -1⟩ ∨
      ((0 : Int) ≤ (⟨7, 2⟩ : cursor).it ∧
        (⟨7, 2⟩ : cursor).it ≤
          base_end (⟨[10, 11, 12, 13, 14, 15, 16], 3, true, false⟩ : stride_view Nat) ∧
        0 ≤ (⟨7, 2⟩ : cursor).offset ∧ (⟨7, 2⟩ : cursor).offset < 3 ∧
        ((⟨7, 2⟩ : cursor).it + (⟨7, 2⟩ : cursor).offset) % 3 = 0 ∧
        ((⟨7, 2⟩ : cursor).offset ≠ 0 →
          (⟨7, 2⟩ : cursor).it =
            base_end (⟨[10, 11, 12, 13, 14, 15, 16], 3, true, false⟩ : stride_view Nat)))) :=
  (reachable_cursor_invariant
    (⟨[10, 11, 12, 13, 14, 15, 16], 3, true, false⟩ : stride_view Nat) (by decide) 3 ⟨7, 2⟩
    ⟨[op.step_forward, op.step_forward, op.step_forward], Or.inl (by decide)⟩).1 rfl

/-- C16 as stated fails on a base that is not backward-capable, whose offset is the
constant 0: with seven elements and stride 3, three in-bounds `next` calls from the
begin cursor reach `(pos, offset) = (7, 0)`, which is not the unresolved end cursor
and has `(pos + offset) mod S = 1`. -/
theorem forward_only_invariant_counterexample :
    (0 : Int) < (⟨[10, 11, 12, 13, 14, 15, 16], 3, false, false⟩ : stride_view Nat).stride_ ∧
      run (⟨[10, 11, 12, 13, 14, 15, 16], 3, false, false⟩ : stride_view Nat)
          [op.step_forward, op.step_forward, op.step_forward] 0
          (begin_adaptor (⟨[10, 11, 12, 13, 14, 15, 16], 3, false, false⟩ : stride_view Nat)) =
        outcome.at 3 ⟨7, 0⟩ ∧
      reachable (⟨[10, 11, 12, 13, 14, 15, 16], 3, false, false⟩ : stride_view Nat) 3 ⟨7, 0⟩ ∧
      ¬ ((⟨7, 0⟩ : cursor) =
          ⟨base_end (⟨[10, 11, 12, 13, 14, 15, 16], 3, false, false⟩ : stride_view Nat), -1⟩ ∨
        ((0 : Int) ≤ (⟨7, 0⟩ : cursor).it ∧
          (⟨7, 0⟩ : cursor).it ≤
            base_end (⟨[10, 11, 12, 13, 14, 15, 16], 3, false, false⟩ : stride_view Nat) ∧
          0 ≤ (⟨7, 0⟩ : cursor).offset ∧ (⟨7, 0⟩ : cursor).offset < 3 ∧
          ((⟨7, 0⟩ : cursor).it + (⟨7, 0⟩ : cursor).offset) % 3 = 0 ∧
          ((⟨7, 0⟩ : cursor).offset ≠ 0 →
            (⟨7, 0⟩ : cursor).it =
              base_end (⟨[10, 11, 12, 13, 14, 15, 16], 3, false, false⟩ : stride_view Nat)))) := by
  refine ⟨by decide, by decide,
    ⟨[op.step_forward, op.step_forward, op.step_forward], Or.inl (by decide)⟩, ?_⟩
  intro h
  rcases h with h | ⟨_, _, _, _, h, _⟩
  · exact absurd h (by decide)
  · exact absurd h (by decide)

/-! ## Lazy and eager end cursors, forward-reached end, inverse steps -/

/-- C17: lazy and eager end cursors are observationally equivalent.  For every
backward-capable base and stride, the end cursor built with unresolved offset (`-1`,
base not sized) and the end cursor whose offset was set to `calc_offset()` at
construction (sized base) give the same resulting position, offset and returned value
under `prev`, `advance(n)` with `n ≠ 0`, and `distance_to` as either argument. -/
theorem lazy_end_cursor_equivalent (rng : List α) (stride : Int) :
    end_adaptor (⟨rng, stride, true, false⟩ : stride_view α) = ⟨rng.length, -1⟩ ∧
    end_adaptor (⟨rng, stride, true, true⟩ : stride_view α) =
      ⟨rng.length, adaptor.calc_offset (⟨rng, stride, true, true⟩ : stride_view α)⟩ ∧
    adaptor.prev ⟨rng, stride, true, false⟩
        (end_adaptor (⟨rng, stride, true, false⟩ : stride_view α)) =
      adaptor.prev ⟨rng, stride, true, true⟩
        (end_adaptor (⟨rng, stride, true, true⟩ : stride_view α)) ∧
    (∀ n : Int, n ≠ 0 →
      adaptor.advance ⟨rng, stride, true, false⟩
          (end_adaptor (⟨rng, stride, true, false⟩ : stride_view α)) n =
        adaptor.advance ⟨rng, stride, true, true⟩
          (end_adaptor (⟨rng, stride, true, true⟩ : stride_view α)) n) ∧
    (∀ d : cursor,
      adaptor.distance_to ⟨rng, stride, true, false⟩
          (end_adaptor (⟨rng, stride, true, false⟩ : stride_view α)) d =
        adaptor.distance_to ⟨rng, stride, true, true⟩
          (end_adaptor (⟨rng, stride, true, true⟩ : stride_view α)) d) ∧
    (∀ d : cursor,
      adaptor.distance_to ⟨rng, stride, true, false⟩ d
          (end_adaptor (⟨rng, stride, true, false⟩ : stride_view α)) =
        adaptor.distance_to ⟨rng, stride, true, true⟩ d
          (end_adaptor (⟨rng, stride, true, true⟩ : stride_view α))) := by
  have e1 : end_adaptor (⟨rng, stride, true, false⟩ : stride_view α) = ⟨rng.length, -1⟩ := by
    simp [end_adaptor, offset_t, base_end]
  have e2 : end_adaptor (⟨rng, stride, true, true⟩ : stride_view α) =
      ⟨rng.length, adaptor.calc_offset (⟨rng, stride, true, true⟩ : stride_view α)⟩ := by
    simp [end_adaptor, offset_t, base_end]
  have ec : adaptor.calc_offset (⟨rng, stride, true, true⟩ : stride_view α) =
      adaptor.calc_offset (⟨rng, stride, true, false⟩ : stride_view α) := rfl
  have hclean : adaptor.clean (⟨rng, stride, true, false⟩ : stride_view α) ⟨rng.length, -1⟩ =
      adaptor.clean (⟨rng, stride, true, true⟩ : stride_view α)
        ⟨rng.length, adaptor.calc_offset (⟨rng, stride, true, true⟩ : stride_view α)⟩ := by
    rw [clean_unresolved, ec]
    by_cases h : adaptor.calc_offset (⟨rng, stride, true, false⟩ : stride_view α) = -1
    · simp [adaptor.clean, h]
      exact h.symm
    · rw [clean_resolved _ _ h]
  refine ⟨e1, e2, ?_, ?_, ?_, ?_⟩
  · rw [e1, e2, prev_unresolved, ec]; rfl
  · intro n hn
    rw [e1, e2, jump_unresolved _ _ n hn, ec]; rfl
  · intro d
    rw [e1, e2]
    have hd : adaptor.clean (⟨rng, stride, true, false⟩ : stride_view α) d =
        adaptor.clean (⟨rng, stride, true, true⟩ : stride_view α) d := rfl
    simp only [adaptor.distance_to, hclean, hd]
  · intro d
    rw [e1, e2]
    have hd : adaptor.clean (⟨rng, stride, true, false⟩ : stride_view α) d =
        adaptor.clean (⟨rng, stride, true, true⟩ : stride_view α) d := rfl
    simp only [adaptor.distance_to, hclean, hd]

/-- C18 (amended): for every base length `L` and stride `S > 0`, the cursor obtained
from the begin cursor by `ceil(L / S)` calls of `next` has underlying position = base
end.  On a backward-capable base its offset, the shortfall recorded by the last stride,
equals `calc_offset()`, so it is the resolved end cursor: the state `clean` makes of the
cursor `end_adaptor` builds, and that cursor itself when the base is sized.  On a base
that is not backward-capable the offset reads the constant `0`, and the state is again
the one `end_adaptor` builds. -/
theorem forward_stepping_reaches_end_cursor (v : stride_view α) (hS : 0 < v.stride_) :
    (∃ c, next_n v ⌈(v.base.length : ℚ) / (v.stride_ : ℚ)⌉₊ (begin_adaptor v) = some c ∧
      c.it = base_end v) ∧
    (v.bidirectional = true →
      next_n v ⌈(v.base.length : ℚ) / (v.stride_ : ℚ)⌉₊ (begin_adaptor v) =
          some ⟨base_end v, adaptor.calc_offset v⟩ ∧
        adaptor.clean v (end_adaptor v) = ⟨base_end v, adaptor.calc_offset v⟩ ∧
        (v.sized = true → end_adaptor v = ⟨base_end v, adaptor.calc_offset v⟩)) ∧
    (v.bidirectional = false →
      next_n v ⌈(v.base.length : ℚ) / (v.stride_ : ℚ)⌉₊ (begin_adaptor v) =
          some ⟨base_end v, 0⟩ ∧
        end_adaptor v = ⟨base_end v, 0⟩) := by
  have hn := next_n_count v hS
  refine ⟨⟨_, hn, rfl⟩, ?_, ?_⟩
  · intro hbd
    rw [offset_t_bidir v hbd] at hn
    refine ⟨hn, ?_, ?_⟩
    · rw [clean_at_end v _ (end_adaptor_state v hbd).2]; rfl
    · intro hs
      simp [end_adaptor, offset_t, hbd, hs]
  · intro hnb
    have h0 : ∀ x : Int, offset_t v x = 0 := by intro x; simp [offset_t, hnb]
    rw [h0] at hn
    exact ⟨hn, by simp [end_adaptor, h0, hnb]⟩

theorem forward_stepping_reaches_end_cursor_witness :
    next_n (⟨[10, 11, 12, 13, 14, 15, 16], 3, true, true⟩ : stride_view Nat) 3 ⟨0, 0⟩ =
        some ⟨7, 2⟩ ∧
      end_adaptor (⟨[10, 11, 12, 13, 14, 15, 16], 3, true, true⟩ : stride_view Nat) = ⟨7, 2⟩ := by
  have h := (forward_stepping_reaches_end_cursor
    (⟨[10, 11, 12, 13, 14, 15, 16], 3, true, true⟩ : stride_view Nat) (by decide)).2.1 rfl
  rw [count_example] at h
  exact ⟨h.1, h.2.2 rfl⟩

/-- C18 as stated fails on a base that is not backward-capable: with seven elements
and stride 3 (`L ≥ 1`, `ceil(L / S) = 3`), three calls of `next` from the begin cursor
reach the base end with offset `0`, while `calc_offset()` is `2`. -/
theorem forward_only_end_offset_counterexample :
    1 ≤ (⟨[10, 11, 12, 13, 14, 15, 16], 3, false, false⟩ : stride_view Nat).base.length ∧
      (0 : Int) < (⟨[10, 11, 12, 13, 14, 15, 16], 3, false, false⟩ : stride_view Nat).stride_ ∧
      ⌈(((⟨[10, 11, 12, 13, 14, 15, 16], 3, false, false⟩ : stride_view Nat).base.length : ℚ)) /
        (((⟨[10, 11, 12, 13, 14, 15, 16], 3, false, false⟩ : stride_view Nat).stride_ : ℚ))⌉₊ = 3 ∧
      next_n (⟨[10, 11, 12, 13, 14, 15, 16], 3, false, false⟩ : stride_view Nat) 3
          (begin_adaptor (⟨[10, 11, 12, 13, 14, 15, 16], 3, false, false⟩ : stride_view Nat)) =
        some ⟨7, 0⟩ ∧
      adaptor.calc_offset (⟨[10, 11, 12, 13, 14, 15, 16], 3, false, false⟩ : stride_view Nat) = 2 ∧
      ¬ (∃ c, next_n (⟨[10, 11, 12, 13, 14, 15, 16], 3, false, false⟩ : stride_view Nat) 3
            (begin_adaptor (⟨[10, 11, 12, 13, 14, 15, 16], 3, false, false⟩ : stride_view Nat)) =
          some c ∧
        c.offset =
          adaptor.calc_offset (⟨[10, 11, 12, 13, 14, 15, 16], 3, false, false⟩ : stride_view Nat)) := by
  refine ⟨by decide, by decide, count_example false false, by decide, by decide, ?_⟩
  rintro ⟨c, h1, h2⟩
  have h3 : next_n (⟨[10, 11, 12, 13, 14, 15, 16], 3, false, false⟩ : stride_view Nat) 3
      (begin_adaptor (⟨[10, 11, 12, 13, 14, 15, 16], 3, false, false⟩ : stride_view Nat)) =
      some ⟨7, 0⟩ := by decide
  rw [h3] at h1
  simp only [Option.some.injEq] at h1
  rw [← h1] at h2
  exact absurd h2 (by decide)

/-- C19: forward and backward steps are mutually inverse on reachable cursors of a
backward-capable base: for every stride `S > 0` and reachable cursor `c`, if `c` is not
at the base end then `prev` after `next` gives back `c` (same position, offset 0), and
if `c` is not at the base begin then `next` after `prev` gives `c` with its offset
resolved (same position, offset that of `clean(c)`). -/
theorem steps_mutually_inverse (v : stride_view α) (hS : 0 < v.stride_)
    (hbd : v.bidirectional = true) (k : Nat) (c : cursor) (hr : reachable v k c) :
    (c.it ≠ base_end v →
      (adaptor.next v c).bind (adaptor.prev v) = some c ∧ c.offset = 0) ∧
    (c.it ≠ base_begin v →
      (adaptor.prev v c).bind (adaptor.next v) = some (adaptor.clean v c) ∧
        (adaptor.clean v c).it = c.it) := by
  have hat := reachable_at_index v hS k c hr
  have hb := ceil_bounds v.base.length v.stride_ hS
  have hk0 : (0 : Int) ≤ (k : Int) * v.stride_ :=
    Int.mul_nonneg (Int.ofNat_nonneg _) (le_of_lt hS)
  constructor
  · intro hne
    obtain ⟨hlt, hc, _⟩ := at_index_inner v hS k c hat hne
    subst hc
    refine ⟨?_, rfl⟩
    by_cases h2 : (k : Int) * v.stride_ + v.stride_ < v.base.length
    · rw [next_inner v hS _ h2]
      simp only [Option.some_bind]
      rw [prev_resolved v _ 0 (le_refl _) hS (by omega)]
      congr 2; omega
    · rw [next_last v hS _ hlt (by omega), offset_t_bidir v hbd]
      simp only [Option.some_bind]
      rw [prev_resolved v _ _ (by omega) (by omega) (by omega)]
      congr 2; omega
  · intro hne
    have hne0 : c.it ≠ 0 := hne
    rcases at_index_cases v hbd hS k c hat with ⟨hlt, hc⟩ | ⟨_, hit, hoff⟩
    · subst hc
      have hS1 : v.stride_ ≤ (k : Int) * v.stride_ := by
        obtain ⟨j, rfl⟩ : ∃ j, k = j + 1 := by
          rcases Nat.eq_zero_or_pos k with h0 | h0
          · subst h0; simp at hne0
          · exact ⟨k - 1, by omega⟩
        rw [succ_mul_cast]
        have : (0 : Int) ≤ (j : Int) * v.stride_ :=
          Int.mul_nonneg (Int.ofNat_nonneg _) (le_of_lt hS)
        omega
      rw [clean_resolved v _ (by simp), prev_resolved v _ 0 (le_refl _) hS (by omega)]
      simp only [Option.some_bind]
      rw [next_inner v hS _ (by omega)]
      exact ⟨by congr 2; omega, trivial⟩
    · have hL : 0 < v.base.length := by
        rcases Nat.eq_zero_or_pos v.base.length with h0 | h0
        · exfalso; apply hne0; rw [hit, h0]; rfl
        · exact h0
      have hm := stride_le_count_mul v hS hL
      have hco := calc_offset_eq v hS _ hb.1 hb.2
      rw [prev_from_end v hS hL c (by rw [hit]; rfl) hoff, clean_at_end v c hoff]
      simp only [Option.some_bind]
      rw [next_last v hS _ (by omega) (by omega), offset_t_bidir v hbd, hit, hco]
      exact ⟨by congr 2; omega, trivial⟩

theorem steps_mutually_inverse_witness :
    (adaptor.next (⟨[10, 11, 12, 13, 14, 15, 16], 3, true, false⟩ : stride_view Nat)
        ⟨6, 0⟩).bind
        (adaptor.prev (⟨[10, 11, 12, 13, 14, 15, 16], 3, true, false⟩ : stride_view Nat)) =
      some ⟨6, 0⟩ ∧
    (adaptor.prev (⟨[10, 11, 12, 13, 14, 15, 16], 3, true, false⟩ : stride_view Nat)
        ⟨7, -1⟩).bind
        (adaptor.next (⟨[10, 11, 12, 13, 14, 15, 16], 3, true, false⟩ : stride_view Nat)) =
      some ⟨7, 2⟩ :=
  ⟨((steps_mutually_inverse
      (⟨[10, 11, 12, 13, 14, 15, 16], 3, true, false⟩ : stride_view Nat) (by decide) rfl 2 ⟨6, 0⟩
      ⟨[op.step_forward, op.step_forward], Or.inl (by decide)⟩).1 (by decide)).1,
    ((steps_mutually_inverse
      (⟨[10, 11, 12, 13, 14, 15, 16], 3, true, false⟩ : stride_view Nat) (by decide) rfl 3 ⟨7, -1⟩
      ⟨[], Or.inr (by decide)⟩).2 (by decide)).1⟩

/-! ## Concurrent offset resolution -/

/-- What one atomic step keeps true: the cell holds `-1` or `calc_offset()`, a resolved
cell stays resolved, the thread has only read these two values, has read only
`calc_offset()` after `clean`, and the cell is resolved once the thread has returned. -/
theorem clean_step_ok (v : stride_view α) (cell : Int)
    (t : clean_thread) (hcell : cell = -1 ∨ cell = adaptor.calc_offset v)
    (hseen : ∀ x ∈ t.seen, x = -1 ∨ x = adaptor.calc_offset v)
    (hlater : ∀ x ∈ t.later, x = adaptor.calc_offset v)
    (hret : t.pc = clean_pc.returned → cell = adaptor.calc_offset v) :
    ((clean_step v cell t).1 = -1 ∨ (clean_step v cell t).1 = adaptor.calc_offset v) ∧
      (cell = adaptor.calc_offset v → (clean_step v cell t).1 = adaptor.calc_offset v) ∧
      (∀ x ∈ (clean_step v cell t).2.seen, x = -1 ∨ x = adaptor.calc_offset v) ∧
      (∀ x ∈ (clean_step v cell t).2.later, x = adaptor.calc_offset v) ∧
      ((clean_step v cell t).2.pc = clean_pc.returned →
        (clean_step v cell t).1 = adaptor.calc_offset v) := by
  obtain ⟨pc, seen, later⟩ := t
  simp only at hseen hlater hret
  have hmem : ∀ x ∈ seen ++ [cell], x = -1 ∨ x = adaptor.calc_offset v := by
    intro x hx
    rcases List.mem_append.mp hx with h | h
    · exact hseen x h
    · rw [List.mem_singleton.mp h]; exact hcell
  cases pc with
  | at_load =>
    refine ⟨hcell, fun h => h, hmem, hlater, ?_⟩
    intro h
    simp only [clean_step] at h ⊢
    by_cases hc : cell = -1
    · simp [hc] at h
    · rcases hcell with h1 | h1
      · exact absurd h1 hc
      · exact h1
  | at_cas =>
    have hnew : (if cell = -1 then adaptor.calc_offset v else cell) = adaptor.calc_offset v := by
      by_cases hc : cell = -1
      · simp [hc]
      · rcases hcell with h1 | h1
        · exact absurd h1 hc
        · simp [hc, h1]
    simp only [clean_step]
    exact ⟨Or.inr hnew, fun _ => hnew, hmem, hlater, fun _ => hnew⟩
  | returned =>
    have hc := hret rfl
    simp only [clean_step]
    refine ⟨hcell, fun h => h, hseen, ?_, fun _ => hc⟩
    intro x hx
    rcases List.mem_append.mp hx with h | h
    · exact hlater x h
    · rw [List.mem_singleton.mp h]; exact hc

theorem race_step_ok (v : stride_view α) (s : clean_race)
    (i : Nat) (hcell : s.cell = -1 ∨ s.cell = adaptor.calc_offset v)
    (hth : ∀ t ∈ s.threads, (∀ x ∈ t.seen, x = -1 ∨ x = adaptor.calc_offset v) ∧
      (∀ x ∈ t.later, x = adaptor.calc_offset v) ∧
      (t.pc = clean_pc.returned → s.cell = adaptor.calc_offset v)) :
    ((race_step v s i).cell = -1 ∨ (race_step v s i).cell = adaptor.calc_offset v) ∧
      (race_step v s i).threads.length = s.threads.length ∧
      ∀ t ∈ (race_step v s i).threads, (∀ x ∈ t.seen, x = -1 ∨ x = adaptor.calc_offset v) ∧
        (∀ x ∈ t.later, x = adaptor.calc_offset v) ∧
        (t.pc = clean_pc.returned → (race_step v s i).cell = adaptor.calc_offset v) := by
  unfold race_step
  cases hget : s.threads[i]? with
  | none => exact ⟨hcell, rfl, hth⟩
  | some t0 =>
    have hmem0 : t0 ∈ s.threads := List.mem_iff_getElem?.mpr ⟨i, hget⟩
    obtain ⟨h1, h2, h3⟩ := hth t0 hmem0
    obtain ⟨k1, k2, k3, k4, k5⟩ := clean_step_ok v s.cell t0 hcell h1 h2 h3
    refine ⟨k1, by simp, ?_⟩
    intro t ht
    simp only at ht ⊢
    rcases List.mem_or_eq_of_mem_set ht with h | h
    · obtain ⟨g1, g2, g3⟩ := hth t h
      exact ⟨g1, g2, fun hr => k2 (g3 hr)⟩
    · rw [h]; exact ⟨k3, k4, k5⟩

theorem race_run_ok (v : stride_view α) (sched : List Nat) :
    ∀ s : clean_race, (s.cell = -1 ∨ s.cell = adaptor.calc_offset v) →
      (∀ t ∈ s.threads, (∀ x ∈ t.seen, x = -1 ∨ x = adaptor.calc_offset v) ∧
        (∀ x ∈ t.later, x = adaptor.calc_offset v) ∧
        (t.pc = clean_pc.returned → s.cell = adaptor.calc_offset v)) →
      ((race_run v sched s).cell = -1 ∨ (race_run v sched s).cell = adaptor.calc_offset v) ∧
        (race_run v sched s).threads.length = s.threads.length ∧
        ∀ t ∈ (race_run v sched s).threads,
          (∀ x ∈ t.seen, x = -1 ∨ x = adaptor.calc_offset v) ∧
          (∀ x ∈ t.later, x = adaptor.calc_offset v) ∧
          (t.pc = clean_pc.returned → (race_run v sched s).cell = adaptor.calc_offset v) := by
  induction sched with
  | nil => intro s hcell hth; exact ⟨hcell, rfl, hth⟩
  | cons i rest ih =>
    intro s hcell hth
    obtain ⟨h1, h2, h3⟩ := race_step_ok v s i hcell hth
    obtain ⟨g1, g2, g3⟩ := ih (race_step v s i) h1 h3
    exact ⟨g1, by rw [race_run, g2, h2], g3⟩

/-- A step of its own takes a thread one place further, up to `returned`. -/
theorem clean_step_rank (v : stride_view α) (cell : Int) (t : clean_thread) :
    min 2 (t.pc.rank + 1) ≤ (clean_step v cell t).2.pc.rank := by
  obtain ⟨pc, seen, later⟩ := t
  cases pc with
  | at_load =>
    simp only [clean_step]
    by_cases hc : cell = -1
    · simp [hc, clean_pc.rank]
    · simp [hc, clean_pc.rank]
  | at_cas => simp [clean_step, clean_pc.rank]
  | returned => simp [clean_step, clean_pc.rank]

/-- However the other threads are scheduled, a thread is as many places further as it
has made steps, up to `returned`: nothing ever holds it back. -/
theorem race_run_rank (v : stride_view α) (i : Nat) (sched : List Nat) :
    ∀ (s : clean_race) (t : clean_thread), s.threads[i]? = some t →
      ∃ t1, (race_run v sched s).threads[i]? = some t1 ∧
        min 2 (t.pc.rank + sched.count i) ≤ t1.pc.rank := by
  induction sched with
  | nil =>
    intro s t ht
    exact ⟨t, ht, by simp⟩
  | cons j rest ih =>
    intro s t ht
    by_cases hji : j = i
    · subst hji
      have hlt : j < s.threads.length := (List.getElem?_eq_some.mp ht).1
      have hstep : (race_step v s j).threads[j]? = some (clean_step v s.cell t).2 := by
        simp only [race_step, ht]
        exact List.getElem?_set_self hlt
      obtain ⟨t1, h1, h2⟩ := ih (race_step v s j) _ hstep
      refine ⟨t1, h1, ?_⟩
      have h3 := clean_step_rank v s.cell t
      rw [List.count_cons_self]
      omega
    · have hstep : (race_step v s j).threads[i]? = some t := by
        unfold race_step
        cases hget : s.threads[j]? with
        | none => exact ht
        | some tj =>
          simp only
          rw [List.getElem?_set_ne hji]
          exact ht
      obtain ⟨t1, h1, h2⟩ := ih (race_step v s j) t hstep
      refine ⟨t1, h1, ?_⟩
      rw [List.count_cons_of_ne (fun h => hji h.symm)]
      exact h2

theorem rank_two (p : clean_pc) (h : 2 ≤ p.rank) : p = clean_pc.returned := by
  cases p with
  | at_load => simp [clean_pc.rank] at h
  | at_cas => simp [clean_pc.rank] at h
  | returned => rfl

theorem race_alone (v : stride_view α) (p off : Int) :
    (race_run v [0, 0]
        { cell := off, threads := [{ pc := clean_pc.at_load, seen := [], later := [] }] }).cell =
      (adaptor.clean v ⟨p, off⟩).offset := by
  by_cases h : off = -1
  · subst h
    simp [race_run, race_step, clean_step, adaptor.clean]
  · simp [race_run, race_step, clean_step, adaptor.clean, h]

/-- C15: for every number `N` of threads that concurrently trigger first-time offset
resolution (`clean`: an atomic load, then one compare-and-set from `-1` to
`calc_offset()`) on the same unresolved end-cursor offset cell, under every
interleaving: the cell only ever holds `-1` or `calc_offset()`, which is not `-1`; no
thread reads any other value; once a thread's `clean` has returned the cell holds
`calc_offset()` and every later read of that thread gives `calc_offset()`; and no
thread blocks: a step of its own always takes an unfinished thread further, and after
two steps of its own its `clean` has returned, whatever the other threads do.  A
thread running alone does what the sequential `clean` does. -/
theorem concurrent_clean_resolves_once (v : stride_view α) (hS : 0 < v.stride_) (N : Nat)
    (sched : List Nat) :
    adaptor.calc_offset v ≠ -1 ∧
    ((race_run v sched (race_init N)).cell = -1 ∨
      (race_run v sched (race_init N)).cell = adaptor.calc_offset v) ∧
    (race_run v sched (race_init N)).threads.length = N ∧
    (∀ t ∈ (race_run v sched (race_init N)).threads,
      (∀ x ∈ t.seen, x = -1 ∨ x = adaptor.calc_offset v) ∧
      (∀ x ∈ t.later, x = adaptor.calc_offset v) ∧
      (t.pc = clean_pc.returned →
        (race_run v sched (race_init N)).cell = adaptor.calc_offset v)) ∧
    (∀ i, i < N → 2 ≤ sched.count i →
      ∃ t, (race_run v sched (race_init N)).threads[i]? = some t ∧
        t.pc = clean_pc.returned) ∧
    (∀ (cell : Int) (t : clean_thread), t.pc ≠ clean_pc.returned →
      (clean_step v cell t).2.pc ≠ t.pc) ∧
    (∀ p off : Int,
      (race_run v [0, 0]
          { cell := off, threads := [{ pc := clean_pc.at_load, seen := [], later := [] }] }).cell =
        (adaptor.clean v ⟨p, off⟩).offset) := by
  have hr := calc_offset_range v hS
  have hinit : ∀ t ∈ (race_init N).threads,
      (∀ x ∈ t.seen, x = -1 ∨ x = adaptor.calc_offset v) ∧
      (∀ x ∈ t.later, x = adaptor.calc_offset v) ∧
      (t.pc = clean_pc.returned → (race_init N).cell = adaptor.calc_offset v) := by
    intro t ht
    simp only [race_init] at ht
    rw [List.eq_of_mem_replicate ht]
    exact ⟨fun x hx => absurd hx (List.not_mem_nil x), fun x hx => absurd hx (List.not_mem_nil x),
      fun h => clean_pc.noConfusion h⟩
  obtain ⟨h1, h2, h3⟩ := race_run_ok v sched (race_init N) (Or.inl rfl) hinit
  refine ⟨by omega, h1, by rw [h2]; simp [race_init], h3, ?_, ?_, race_alone v⟩
  · intro i hi hcount
    have hget : (race_init N).threads[i]? =
        some { pc := clean_pc.at_load, seen := [], later := [] } := by
      simp [race_init, List.getElem?_replicate, hi]
    obtain ⟨t1, g1, g2⟩ := race_run_rank v i sched (race_init N) _ hget
    refine ⟨t1, g1, rank_two _ ?_⟩
    change min 2 (0 + sched.count i) ≤ t1.pc.rank at g2
    omega
  · intro cell t hne
    have := clean_step_rank v cell t
    intro heq
    rw [heq] at this
    cases hp : t.pc with
    | at_load => rw [hp] at this; simp [clean_pc.rank] at this
    | at_cas => rw [hp] at this; simp [clean_pc.rank] at this
    | returned => exact hne hp

theorem concurrent_clean_resolves_once_witness :
    ((race_run (⟨[10, 11, 12, 13, 14, 15, 16], 3, true, false⟩ : stride_view Nat)
          [0, 1, 0, 2, 1, 2, 0] (race_init 3)).cell = -1 ∨
      (race_run (⟨[10, 11, 12, 13, 14, 15, 16], 3, true, false⟩ : stride_view Nat)
          [0, 1, 0, 2, 1, 2, 0] (race_init 3)).cell =
        adaptor.calc_offset (⟨[10, 11, 12, 13, 14, 15, 16], 3, true, false⟩ : stride_view Nat)) ∧
    ∃ t, (race_run (⟨[10, 11, 12, 13, 14, 15, 16], 3, true, false⟩ : stride_view Nat)
          [0, 1, 0, 2, 1, 2, 0] (race_init 3)).threads[1]? = some t ∧
      t.pc = clean_pc.returned :=
  ⟨(concurrent_clean_resolves_once
      (⟨[10, 11, 12, 13, 14, 15, 16], 3, true, false⟩ : stride_view Nat) (by decide) 3
      [0, 1, 0, 2, 1, 2, 0]).2.1,
    (concurrent_clean_resolves_once
      (⟨[10, 11, 12, 13, 14, 15, 16], 3, true, false⟩ : stride_view Nat) (by decide) 3
      [0, 1, 0, 2, 1, 2, 0]).2.2.2.2.1 1 (by decide) (by decide)⟩

end stride_view

/-! ## `copy_n` -/

namespace copy_n_fn

variable {α : Type}

theorem iterations_length (xs : List α) : ∀ b out : Nat,
    (iterations b out xs).length = 2 * xs.length := by
  induction xs with
  | nil => intro b out; rfl
  | cons x xs ih => intro b out; simp only [iterations, List.length_cons, ih]; omega

/-- What `n` iterations of the loop do when the source has `n` readable elements
ahead and the destination room for `n` writes. -/
theorem loop_spec (n : Nat) : ∀ (b out : Nat) (s : copy_state α),
    b + n ≤ s.mem.length → out + n ≤ s.mem.length →
    ∃ (s1 : copy_state α) (xs : List α),
      loop n b out s = (.ok (b + n, out + n), s1) ∧
      s1.mem.length = s.mem.length ∧
      xs.length = n ∧
      s1.log = s.log ++ iterations b out xs ∧
      (∀ a, a < out ∨ out + n ≤ a → s1.mem[a]? = s.mem[a]?) ∧
      (∀ i, i < n → s1.mem[out + i]? = xs[i]?) ∧
      ((out ≤ b ∨ b + n ≤ out) → ∀ i, i < n → s1.mem[out + i]? = s.mem[b + i]?) := by
  induction n with
  | zero =>
    intro b out s _ _
    exact ⟨s, [], rfl, rfl, rfl, by simp [iterations], fun _ _ => rfl,
      fun i hi => absurd hi (Nat.not_lt_zero i), fun _ i hi => absurd hi (Nat.not_lt_zero i)⟩
  | succ n ih =>
    intro b out s hb hout
    have hbl : b < s.mem.length := by omega
    have hol : out < s.mem.length := by omega
    have hread : s.mem[b]? = some s.mem[b] := List.getElem?_eq_getElem hbl
    obtain ⟨s1, xs, hrun, hlen, hxs, hlog, hframe, hdst, hsep⟩ :=
      ih (b + 1) (out + 1)
        { mem := s.mem.set out s.mem[b],
          log := s.log ++ [event.read b s.mem[b]] ++ [event.write out s.mem[b]] }
        (by simp only [List.length_set]; omega) (by simp only [List.length_set]; omega)
    simp only [List.length_set] at hlen
    have hcell : s1.mem[out]? = some s.mem[b] := by
      rw [hframe out (Or.inl (by omega))]
      exact List.getElem?_set_self hol
    refine ⟨s1, s.mem[b] :: xs, ?_, hlen, by simp [hxs], ?_, ?_, ?_, ?_⟩
    · simp only [loop, hread, hol, if_true]
      rw [hrun]
      congr 3 <;> omega
    · rw [hlog]; simp [iterations]
    · intro a ha
      rw [hframe a (by omega)]
      exact List.getElem?_set_ne (by omega)
    · intro i hi
      rcases Nat.eq_zero_or_pos i with h0 | h0
      · subst h0; simpa using hcell
      · obtain ⟨j, rfl⟩ : ∃ j, i = j + 1 := ⟨i - 1, by omega⟩
        have := hdst j (by omega)
        rw [show out + (j + 1) = out + 1 + j by omega, this]
        simp
    · intro hs i hi
      rcases Nat.eq_zero_or_pos i with h0 | h0
      · subst h0; simpa [hread] using hcell
      · obtain ⟨j, rfl⟩ : ∃ j, i = j + 1 := ⟨i - 1, by omega⟩
        have := hsep (by omega) j (by omega)
        rw [show out + (j + 1) = out + 1 + j by omega, this,
          show b + (j + 1) = b + 1 + j by omega]
        exact List.getElem?_set_ne (by omega)

theorem loop_no_assertion (n : Nat) : ∀ (b out : Nat) (s : copy_state α),
    (loop n b out s).1 ≠ .error fault.assertion := by
  induction n with
  | zero => intro b out s; simp [loop]
  | succ n ih =>
    intro b out s
    simp only [loop]
    cases hr : s.mem[b]? with
    | none => simp
    | some x =>
      simp only
      split
      · exact ih _ _ _
      · simp

theorem next_n_plain (k p : Nat) : in_pos.next_n k (in_pos.plain p) = in_pos.plain (p + k) := by
  induction k generalizing p with
  | zero => rfl
  | succ k ih => rw [in_pos.next_n, in_pos.next, ih]; congr 1; omega

theorem next_n_counted (k p : Nat) (c : Int) :
    in_pos.next_n k (in_pos.counted p c) = in_pos.counted (p + k) (c - k) := by
  induction k generalizing p c with
  | zero => simp [in_pos.next_n]
  | succ k ih =>
    rw [in_pos.next_n, in_pos.next, ih]
    congr 1
    · omega
    · push_cast; omega

theorem recounted_eq_next_n (begin : in_pos) (n : Int) (hn : 0 ≤ n) :
    recounted begin (uncounted begin + n.toNat) n = in_pos.next_n n.toNat begin := by
  cases begin with
  | plain p => rw [next_n_plain]; rfl
  | counted p c =>
    rw [next_n_counted, Int.toNat_of_nonneg hn]; rfl

theorem call_spec (mem : List α) (begin : in_pos) (n : Int) (out : Nat) (hn : 0 ≤ n)
    (hsrc : uncounted begin + n.toNat ≤ mem.length) (hdst : out + n.toNat ≤ mem.length) :
    ∃ (s1 : copy_state α) (xs : List α),
      call mem begin n out = (.ok (in_pos.next_n n.toNat begin, out + n.toNat), s1) ∧
      s1.mem.length = mem.length ∧
      xs.length = n.toNat ∧
      s1.log = iterations (uncounted begin) out xs ∧
      (∀ a, a < out ∨ out + n.toNat ≤ a → s1.mem[a]? = mem[a]?) ∧
      (∀ i, i < n.toNat → s1.mem[out + i]? = xs[i]?) ∧
      ((out ≤ uncounted begin ∨ uncounted begin + n.toNat ≤ out) →
        ∀ i, i < n.toNat → s1.mem[out + i]? = mem[uncounted begin + i]?) := by
  obtain ⟨s1, xs, hrun, hlen, hxs, hlog, hframe, hdstv, hsep⟩ :=
    loop_spec n.toNat (uncounted begin) out { mem := mem, log := [] } hsrc hdst
  refine ⟨s1, xs, ?_, hlen, hxs, by simpa using hlog, hframe, hdstv, hsep⟩
  simp only [call, hn, if_true, hrun, recounted_eq_next_n begin n hn]

theorem call_zero (mem : List α) (begin : in_pos) (out : Nat) :
    call mem begin 0 out = (.ok (begin, out), { mem := mem, log := [] }) := by
  cases begin <;> simp [call, loop, recounted, uncounted]

theorem call_negative (mem : List α) (begin : in_pos) (n : Int) (out : Nat) (hn : n < 0) :
    call mem begin n out = (.error fault.assertion, { mem := mem, log := [] }) := by
  have : ¬ (0 ≤ n) := by omega
  simp only [call, this, if_false]

theorem call_nonneg_no_assertion (mem : List α) (begin : in_pos) (n : Int) (out : Nat)
    (hn : 0 ≤ n) : (call mem begin n out).1 ≠ .error fault.assertion := by
  have hl := loop_no_assertion n.toNat (uncounted begin) out { mem := mem, log := [] }
  simp only [call, hn, if_true]
  rcases hloop : loop n.toNat (uncounted begin) out { mem := mem, log := [] } with ⟨r, s1⟩
  rw [hloop] at hl
  cases r with
  | ok bo => simp
  | error e =>
    simp only at hl ⊢
    intro h
    apply hl
    cases h
    rfl

/-- C4 (amended): for every `n ≥ 0`, every source with at least `n` readable elements
ahead of the source position and every destination with room for `n` writes,
`copy_n(begin, n, out)` returns the pair (source position advanced exactly `n` times,
destination position advanced exactly `n` times); and when the destination position
does not lie strictly inside the source range (`out ≤ begin` or `begin + n ≤ out`, in
particular when source and destination do not overlap) it leaves destination element
`i` equal to source element `i` as read before the call, for every `0 ≤ i < n`. -/
theorem copy_n_copies_first_n (mem : List α) (begin : in_pos) (n : Int) (out : Nat)
    (hn : 0 ≤ n) (hsrc : uncounted begin + n.toNat ≤ mem.length)
    (hdst : out + n.toNat ≤ mem.length) :
    ∃ s1 : copy_state α,
      call mem begin n out = (.ok (in_pos.next_n n.toNat begin, out + n.toNat), s1) ∧
      ((out ≤ uncounted begin ∨ uncounted begin + n.toNat ≤ out) →
        ∀ i, i < n.toNat → s1.mem[out + i]? = mem[uncounted begin + i]?) := by
  obtain ⟨s1, _, hrun, _, _, _, _, _, hsep⟩ := call_spec mem begin n out hn hsrc hdst
  exact ⟨s1, hrun, hsep⟩

theorem copy_n_copies_first_n_witness :
    ∃ s1 : copy_state Nat,
      call [1, 2, 3, 4, 0, 0, 0] (in_pos.plain 0) 3 4 = (.ok (in_pos.plain 3, 7), s1) ∧
      ∀ i, i < 3 → s1.mem[4 + i]? = [1, 2, 3, 4, 0, 0, 0][0 + i]? := by
  obtain ⟨s1, h1, h2⟩ := copy_n_copies_first_n [1, 2, 3, 4, 0, 0, 0] (in_pos.plain 0) 3 4
    (by decide) (by decide) (by decide)
  exact ⟨s1, h1, h2 (Or.inr (by decide))⟩

/-- C4 as stated fails when the destination starts inside the source range: on the
array `[1, 2, 3, 4]` the call `copy_n(a, 3, a + 1)` has three readable source elements
and room for three writes, yet destination element 1 ends as `1`, not as source
element 1 read before the call, which is `2`. -/
theorem copy_n_overlap_counterexample :
    (0 : Int) ≤ 3 ∧ uncounted (in_pos.plain 0) + 3 ≤ [1, 2, 3, 4].length ∧
      1 + 3 ≤ [1, 2, 3, 4].length ∧
      (call [1, 2, 3, 4] (in_pos.plain 0) 3 1).1 = .ok (in_pos.plain 3, 4) ∧
      (call [1, 2, 3, 4] (in_pos.plain 0) 3 1).2.mem = [1, 1, 1, 1] ∧
      ¬ (∀ i, i < 3 →
        (call [1, 2, 3, 4] (in_pos.plain 0) 3 1).2.mem[1 + i]? =
          [1, 2, 3, 4][uncounted (in_pos.plain 0) + i]?) := by
  refine ⟨by decide, by decide, by decide, by decide, by decide, ?_⟩
  intro h
  exact absurd (h 1 (by decide)) (by decide)

/-- C8: for every source position that carries an embedded remaining-count `c` and
every `n` with `0 ≤ n ≤ c`, `copy_n` runs its loop on the stripped plain position
(`uncounted`) and returns the count-carrying position `recounted` restores from the
original position, the ending plain position and the original `n`: underlying position
advanced `n` times, embedded count `c - n`, which is the original counted position
advanced `n` times; the loop makes exactly `n` reads and `n` writes, so nothing is
traversed again. -/
theorem copy_n_recounts_counted_position (mem : List α) (p : Nat) (c n : Int) (out : Nat)
    (hn : 0 ≤ n) (hc : n ≤ c) (hsrc : p + n.toNat ≤ mem.length)
    (hdst : out + n.toNat ≤ mem.length) :
    ∃ s1 : copy_state α,
      call mem (in_pos.counted p c) n out =
        (.ok (in_pos.counted (p + n.toNat) (c - n), out + n.toNat), s1) ∧
      loop n.toNat (uncounted (in_pos.counted p c)) out { mem := mem, log := [] } =
        (.ok (p + n.toNat, out + n.toNat), s1) ∧
      recounted (in_pos.counted p c) (p + n.toNat) n = in_pos.counted (p + n.toNat) (c - n) ∧
      in_pos.next_n n.toNat (in_pos.counted p c) = in_pos.counted (p + n.toNat) (c - n) ∧
      0 ≤ c - n ∧
      s1.log.length = 2 * n.toNat := by
  obtain ⟨s1, xs, hrun, _, hxs, hlog, _, _, _⟩ :=
    loop_spec n.toNat (uncounted (in_pos.counted p c)) out { mem := mem, log := [] } hsrc hdst
  have hnext : in_pos.next_n n.toNat (in_pos.counted p c) =
      in_pos.counted (p + n.toNat) (c - n) := by
    rw [next_n_counted, Int.toNat_of_nonneg hn]
  refine ⟨s1, ?_, hrun, rfl, hnext, by omega, ?_⟩
  · simp only [call, hn, if_true, hrun]
    rfl
  · rw [hlog]; simp [iterations_length, hxs]

theorem copy_n_recounts_counted_position_witness :
    ∃ s1 : copy_state Nat,
      call [1, 2, 3, 4, 0, 0, 0] (in_pos.counted 1 5) 2 4 =
        (.ok (in_pos.counted 3 3, 6), s1) := by
  obtain ⟨s1, h1, _⟩ := copy_n_recounts_counted_position [1, 2, 3, 4, 0, 0, 0] 1 5 2 4
    (by decide) (by decide) (by decide) (by decide)
  exact ⟨s1, h1⟩

/-- C9 (amended): for every `n ≥ 0` (source with `n` readable elements, destination
with room for `n` writes) `copy_n` performs exactly `n` iterations of {read source,
write destination, advance both}: it writes destination slots `0..n-1` only, leaving
every element that is not one of these slots unchanged, so every destination element
at index `≥ n` and every source element that is not itself one of the written slots;
with `n = 0` it performs no read and no write and returns the two input positions
unchanged. -/
theorem copy_n_frame (mem : List α) (begin : in_pos) (n : Int) (out : Nat)
    (hn : 0 ≤ n) (hsrc : uncounted begin + n.toNat ≤ mem.length)
    (hdst : out + n.toNat ≤ mem.length) :
    (∃ (s1 : copy_state α) (xs : List α),
      call mem begin n out = (.ok (in_pos.next_n n.toNat begin, out + n.toNat), s1) ∧
      xs.length = n.toNat ∧
      s1.log = iterations (uncounted begin) out xs ∧
      s1.mem.length = mem.length ∧
      ∀ a, a < out ∨ out + n.toNat ≤ a → s1.mem[a]? = mem[a]?) ∧
    call mem begin 0 out = (.ok (begin, out), { mem := mem, log := [] }) := by
  obtain ⟨s1, xs, hrun, hlen, hxs, hlog, hframe, _, _⟩ := call_spec mem begin n out hn hsrc hdst
  exact ⟨⟨s1, xs, hrun, hxs, hlog, hlen, hframe⟩, call_zero mem begin out⟩

theorem copy_n_frame_witness :
    (∃ (s1 : copy_state Nat) (xs : List Nat),
      call [1, 2, 3, 4, 0, 0, 0] (in_pos.plain 0) 3 4 = (.ok (in_pos.plain 3, 7), s1) ∧
      xs.length = 3 ∧
      s1.log = iterations 0 4 xs ∧
      s1.mem.length = 7 ∧
      ∀ a, a < 4 ∨ 4 + 3 ≤ a → s1.mem[a]? = [1, 2, 3, 4, 0, 0, 0][a]?) ∧
    call [1, 2, 3, 4, 0, 0, 0] (in_pos.plain 0) 0 4 =
      (.ok (in_pos.plain 0, 4), { mem := [1, 2, 3, 4, 0, 0, 0], log := [] }) :=
  copy_n_frame [1, 2, 3, 4, 0, 0, 0] (in_pos.plain 0) 3 4 (by decide) (by decide) (by decide)

/-- C9 as stated fails when the source range overlaps the destination slots: on the
array `[1, 2, 3, 4]` the call `copy_n(a + 1, 3, a)` has three readable source elements
and room for three writes, yet source element 0 (the cell `a[1]`) is changed from `2`
to `3`. -/
theorem copy_n_source_changed_counterexample :
    (0 : Int) ≤ 3 ∧ uncounted (in_pos.plain 1) + 3 ≤ [1, 2, 3, 4].length ∧
      0 + 3 ≤ [1, 2, 3, 4].length ∧
      (call [1, 2, 3, 4] (in_pos.plain 1) 3 0).1 = .ok (in_pos.plain 4, 3) ∧
      (call [1, 2, 3, 4] (in_pos.plain 1) 3 0).2.mem = [2, 3, 4, 4] ∧
      ¬ (∀ i, i < 3 →
        (call [1, 2, 3, 4] (in_pos.plain 1) 3 0).2.mem[uncounted (in_pos.plain 1) + i]? =
          [1, 2, 3, 4][uncounted (in_pos.plain 1) + i]?) := by
  refine ⟨by decide, by decide, by decide, by decide, by decide, ?_⟩
  intro h
  exact absurd (h 0 (by decide)) (by decide)

/-- C10: `copy_n(begin, n, out)` takes the fatal contract-violation path if and only if
`n < 0`, and when it does so no source element has been read and no destination
element written: the store is the one passed in and the access log is empty. -/
theorem copy_n_asserts_iff_negative (mem : List α) (begin : in_pos) (n : Int) (out : Nat) :
    ((call mem begin n out).1 = .error fault.assertion ↔ n < 0) ∧
      ((call mem begin n out).1 = .error fault.assertion →
        (call mem begin n out).2 = { mem := mem, log := [] }) := by
  by_cases hn : n < 0
  · rw [call_negative mem begin n out hn]
    exact ⟨⟨fun _ => hn, fun _ => rfl⟩, fun _ => rfl⟩
  · have h := call_nonneg_no_assertion mem begin n out (by omega)
    exact ⟨⟨fun h' => absurd h' h, fun h' => absurd h' hn⟩, fun h' => absurd h' h⟩

end copy_n_fn

end ranges
